import Mathlib

/-!
Shallow embedding of `ReplicatedMergeTreeQueue`
(`dbms/src/Storages/MergeTree/ReplicatedMergeTreeQueue.cpp`).

Conventions of the translation:

* Part names are identified with their parsed `MergeTreePartInfo`.  The
  part-name format `partition_minblock_maxblock_level(_version)` is in
  bijection with the info tuple, and `MergeTreePartInfo::fromPartName` /
  part-name printing live outside the translated file, so `String` part
  names of the C++ become `MergeTreePartInfo` values here and
  `fromPartName` becomes the identity.  Znode names stay `String`s.
* `std::set` and `std::map` become lists sorted by key, `std::list` and
  `std::deque` plain lists, `std::unordered_map` association lists.
* Out-parameter reason strings are dropped; only the boolean results are
  modelled (the merge-symmetry law of the spec explicitly ignores reasons).
* Functions that throw return `Option`/`Except`; a constructor that
  throws is modelled as a step that does not happen.
* Coordinator interaction is passed in as explicit data: the list of
  children of a coordinator node plus a fetch function standing for the
  (parallel) `get` of each child body.
-/

/-- Modelled from the spec, section 3 (the parser
`MergeTreePartInfo::fromPartName` is outside the translated file): a part
name encodes partition id, min and max block numbers, level and mutation
version. -/
structure MergeTreePartInfo where
  partition_id : String
  min_block : Int
  max_block : Int
  level : Int
  version : Int
deriving DecidableEq

/-- A part name, identified with its parsed `MergeTreePartInfo`. -/
abbrev PartName := MergeTreePartInfo

/-- Modelled from the spec, sections 3 and 4.A (`MergeTreePartInfo::contains`
is outside the translated file): `A contains B` iff same partition,
`A.min ≤ B.min`, `A.max ≥ B.max`, `A.level ≥ B.level`. -/
def MergeTreePartInfo.contains (outer inner : MergeTreePartInfo) : Bool :=
  decide (outer.partition_id = inner.partition_id)
  && decide (outer.min_block ≤ inner.min_block)
  && decide (inner.max_block ≤ outer.max_block)
  && decide (inner.level ≤ outer.level)

/-- Log entry types of `ReplicatedMergeTreeLogEntry`. -/
inductive LogEntryType where
  | GET_PART
  | MERGE_PARTS
  | DROP_RANGE
  | ATTACH_PART
  | CLEAR_COLUMN
  | MUTATE_PART
deriving DecidableEq

/-- A log entry together with its mutable execution-state attributes.
`actual_new_part_name` uses `none` for the C++ empty string. -/
structure ReplicatedMergeTreeLogEntry where
  znode_name : String
  type : LogEntryType
  new_part_name : PartName
  parts_to_merge : List PartName
  create_time : Nat
  currently_executing : Bool
  num_tries : Nat
  last_attempt_time : Nat
  actual_new_part_name : Option PartName
deriving DecidableEq

/-- Short alias for the log-entry structure. -/
abbrev LogEntry := ReplicatedMergeTreeLogEntry

/-- Opaque mutation command; its payload is produced by an external codec,
so it is modelled as a bare tag. -/
structure MutationCommand where
  id : Nat
deriving DecidableEq

/-- A mutation entry: coordinator node name, per-partition block numbers
and the commands to apply. -/
structure ReplicatedMergeTreeMutationEntry where
  znode_name : String
  block_numbers : List (String × Int)
  commands : List MutationCommand
deriving DecidableEq

namespace ActiveDataPartSet

/-- Modelled from the spec, section 4.B (`ActiveDataPartSet` is outside the
translated file): `add` inserts the name and removes any stored names
strictly contained by it. -/
def add (parts : List PartName) (name : PartName) : List PartName :=
  let pruned := parts.filter (fun p => !(name.contains p && decide (p ≠ name)))
  if pruned.contains name then pruned else name :: pruned

/-- Modelled from the spec, section 4.B: the stored part containing `info`,
or `none`. -/
def getContainingPart (parts : List PartName) (info : PartName) : Option PartName :=
  parts.find? (fun p => p.contains info)

/-- Modelled from the spec, section 4.B: all stored parts contained in
`info`. -/
def getPartsCoveredBy (parts : List PartName) (info : PartName) : List PartName :=
  parts.filter (fun p => info.contains p)

end ActiveDataPartSet

/-- Translation of `std::set<Int64>::upper_bound`: the smallest stored
value strictly greater than `x`, the set being modelled as a list sorted
in strictly increasing order. -/
def setUpperBound (s : List Int) (x : Int) : Option Int :=
  (s.dropWhile (fun b => decide (b ≤ x))).head?

/-- Iterator pattern `upper_bound(k)` followed by `--it` on a `std::map`
modelled as a list sorted by strictly increasing key: the last entry with
key at most `k`, if any. -/
def mapUpperBoundPrev {α : Type} (m : List (Int × α)) (k : Int) : Option (Int × α) :=
  (m.takeWhile (fun p => decide (p.1 ≤ k))).getLast?

/-- The per-partition mutation index `mutations_by_partition`:
partition id to a list of (block number, mutation entry) pairs sorted by
strictly increasing block number. -/
abbrev MutationsByPartition := List (String × List (Int × ReplicatedMergeTreeMutationEntry))

/-- Local part states relevant to `shouldExecuteLogEntry`
(`MergeTreeDataPartState` lives outside the translated file). -/
inductive MergeTreeDataPartState where
  | Temporary
  | PreCommitted
  | Committed
  | Outdated
  | Deleting
deriving DecidableEq

/-- A part in the local part store, as far as the queue reads it. -/
structure LocalDataPart where
  info : PartName
  state : MergeTreeDataPartState
  bytes_on_disk : Nat
deriving DecidableEq

/-- External collaborator `MergeTreeData`: the local part store plus the
one setting the queue reads. -/
structure MergeTreeDataModel where
  parts : List LocalDataPart
  max_bytes_to_merge_at_max_space_in_pool : Nat
deriving DecidableEq

/-- External collaborator `MergeTreeDataMerger`: the cancel flag of its
`merges_blocker` and its current merge-size limit. -/
structure MergeTreeDataMergerModel where
  merges_blocker_cancelled : Bool
  max_parts_size_for_merge : Nat
deriving DecidableEq

/-- `MergeTreeData::getPartIfExists` restricted to a set of part states. -/
def getPartIfExists (data : MergeTreeDataModel) (name : PartName)
    (states : List MergeTreeDataPartState) : Option LocalDataPart :=
  data.parts.find? (fun p => decide (p.info = name) && states.contains p.state)

/-- The in-memory queue state of one replica: the fields of class
`ReplicatedMergeTreeQueue` that the translated routines read or write. -/
structure ReplicatedMergeTreeQueue where
  queue : List LogEntry
  inserts_by_time : List LogEntry
  future_parts : List PartName
  min_unprocessed_insert_time : Nat
  max_processed_insert_time : Nat
  virtual_parts : List PartName
  next_virtual_parts : List PartName
  current_inserts : List (String × List Int)
  mutations : List ReplicatedMergeTreeMutationEntry
  mutations_by_partition : MutationsByPartition
  last_quorum_part : Option PartName
  inprogress_quorum_part : Option PartName
deriving DecidableEq

namespace ReplicatedMergeTreeQueue

/-- The state of a freshly constructed queue: every container empty, both
insert times zero, no quorum parts. -/
def empty : ReplicatedMergeTreeQueue :=
  ⟨[], [], [], 0, 0, [], [], [], [], [], none, none⟩

/-- Modelled from the spec, section 3 (the `ByTime` comparator of
`inserts_by_time` is declared outside the translated file): order by
`create_time`, tiebreak by `znode_name`. -/
def byTimeLt (a b : LogEntry) : Bool :=
  decide (a.create_time < b.create_time)
  || (decide (a.create_time = b.create_time) && decide (a.znode_name < b.znode_name))

/-- Insertion into the ordered set `inserts_by_time`; like `std::set`, an
element whose key is equivalent to a stored one is not inserted. -/
def insertsByTimeInsert : List LogEntry → LogEntry → List LogEntry
  | [], e => [e]
  | x :: t, e =>
    if byTimeLt e x then e :: x :: t
    else if byTimeLt x e then x :: insertsByTimeInsert t e
    else x :: t

/-- Translation of `ReplicatedMergeTreeQueue::insertUnlocked` (the
out-parameter `min_unprocessed_insert_time_changed`, used only to persist
the time to the coordinator afterwards, is dropped). -/
def insertUnlocked (rq : ReplicatedMergeTreeQueue) (entry : LogEntry) : ReplicatedMergeTreeQueue :=
  let rq1 := { rq with next_virtual_parts := ActiveDataPartSet.add rq.next_virtual_parts entry.new_part_name }
  let rq2 :=
    if entry.type ≠ LogEntryType.DROP_RANGE then { rq1 with queue := rq1.queue ++ [entry] }
    else { rq1 with queue := entry :: rq1.queue }
  if entry.type = LogEntryType.GET_PART then
    { rq2 with
      inserts_by_time := insertsByTimeInsert rq2.inserts_by_time entry,
      min_unprocessed_insert_time :=
        if entry.create_time ≠ 0
            ∧ (rq2.min_unprocessed_insert_time = 0
                ∨ entry.create_time < rq2.min_unprocessed_insert_time)
        then entry.create_time
        else rq2.min_unprocessed_insert_time }
  else rq2

/-- Translation of `ReplicatedMergeTreeQueue::load`: `children` is the
child list of the queue node of the replica and `fetch` stands for the
parallel `asyncGet` of each child body (parsing included); the
`znode_name` of the loaded entry is the child name. -/
def load (rq : ReplicatedMergeTreeQueue) (children : List String)
    (fetch : String → LogEntry) : ReplicatedMergeTreeQueue :=
  let already_loaded_paths := rq.queue.map (fun e => e.znode_name)
  let fresh := children.filter (fun c => !already_loaded_paths.contains c)
  let sorted_children := List.insertionSort (· ≤ ·) fresh
  sorted_children.foldl (fun st c => insertUnlocked st { fetch c with znode_name := c }) rq

/-- Translation of `ReplicatedMergeTreeQueue::updateTimesOnRemoval` (the
two `_changed` out-parameters, used only to persist the times to the
coordinator afterwards, are dropped).  `std::set::erase(value)` removes
the stored element whose key is equivalent to the argument under the
`ByTime` comparator. -/
def updateTimesOnRemoval (rq : ReplicatedMergeTreeQueue) (entry : LogEntry) :
    ReplicatedMergeTreeQueue :=
  if entry.type ≠ LogEntryType.GET_PART then rq
  else
    let ibt := rq.inserts_by_time.eraseP (fun x => !byTimeLt x entry && !byTimeLt entry x)
    let min2 :=
      match ibt.head? with
      | none => 0
      | some front =>
        if rq.min_unprocessed_insert_time < front.create_time then front.create_time
        else rq.min_unprocessed_insert_time
    let max2 :=
      if rq.max_processed_insert_time < entry.create_time then entry.create_time
      else rq.max_processed_insert_time
    { rq with
      inserts_by_time := ibt
      min_unprocessed_insert_time := min2
      max_processed_insert_time := max2 }

/-- Translation of `ReplicatedMergeTreeQueue::remove(zookeeper, entry)`
(coordinator removal and time persistence dropped): scan the queue from
the end, erase the first occurrence of the entry found, then update the
insert times.  The scan runs from the back because an entry picked for
execution is moved to the end of the queue; it erases the entry whether
or not it is currently executing. -/
def remove (rq : ReplicatedMergeTreeQueue) (entry : LogEntry) : ReplicatedMergeTreeQueue :=
  updateTimesOnRemoval { rq with queue := (rq.queue.reverse.erase entry).reverse } entry

/-- Translation of `ReplicatedMergeTreeQueue::remove(zookeeper, part_name)`
(coordinator interaction dropped; the boolean result is the state
component `.2`): erase the first queue entry producing `part_name`, if
any, updating the insert times. -/
def removeByPartName (rq : ReplicatedMergeTreeQueue) (part_name : PartName) :
    ReplicatedMergeTreeQueue × Bool :=
  match rq.queue.find? (fun e => decide (e.new_part_name = part_name)) with
  | none => (rq, false)
  | some found =>
    (updateTimesOnRemoval
      { rq with queue := rq.queue.eraseP (fun e => decide (e.new_part_name = part_name)) }
      found, true)

/-- Translation of
`ReplicatedMergeTreeQueue::removePartProducingOpsInRange` (coordinator
removal, logging and time persistence dropped): erase from the queue
every GET_PART, MERGE_PARTS or MUTATE_PART entry whose `new_part_name`
is contained in `part_name`, updating the insert times for each —
whether or not the entry is currently executing.  The final wait on
`execution_complete` of the executing removed entries blocks with the
mutex released and does not change the state; the handles holding those
entries destruct through their own step. -/
def removePartProducingOpsInRange (rq : ReplicatedMergeTreeQueue) (part_name : PartName) :
    ReplicatedMergeTreeQueue :=
  let affected := fun (e : LogEntry) =>
    (decide (e.type = LogEntryType.GET_PART) || decide (e.type = LogEntryType.MERGE_PARTS)
      || decide (e.type = LogEntryType.MUTATE_PART))
    && part_name.contains e.new_part_name
  (rq.queue.filter affected).foldl updateTimesOnRemoval
    { rq with queue := rq.queue.filter (fun e => !affected e) }

/-- Translation of
`ReplicatedMergeTreeQueue::isNotCoveredByFuturePartsImpl`. -/
def isNotCoveredByFuturePartsImpl (rq : ReplicatedMergeTreeQueue) (new_part_name : PartName) : Bool :=
  if rq.future_parts.contains new_part_name then false
  else !(rq.future_parts.any (fun future_part => future_part.contains new_part_name))

/-- Translation of
`ReplicatedMergeTreeQueue::getConflictsForClearColumnCommand` (the
description out-parameter is dropped). -/
def getConflictsForClearColumnCommand (rq : ReplicatedMergeTreeQueue) (entry : LogEntry) : List LogEntry :=
  rq.queue.filter (fun elem =>
    elem.currently_executing
    && decide (elem.znode_name ≠ entry.znode_name)
    && (((decide (elem.type = LogEntryType.MERGE_PARTS)
          || decide (elem.type = LogEntryType.GET_PART)
          || decide (elem.type = LogEntryType.MUTATE_PART)
          || decide (elem.type = LogEntryType.ATTACH_PART))
         && entry.new_part_name.contains elem.new_part_name)
        || (decide (elem.type = LogEntryType.CLEAR_COLUMN)
            && decide (elem.new_part_name.partition_id = entry.new_part_name.partition_id))))

/-- Sum of `bytes_on_disk` over the named parts present locally in states
PreCommitted, Committed or Outdated, as computed by the loop in
`shouldExecuteLogEntry`. -/
def sumPartsSizeInBytes (data : MergeTreeDataModel) (names : List PartName) : Nat :=
  names.foldl (fun acc n =>
    match getPartIfExists data n
        [MergeTreeDataPartState.PreCommitted, MergeTreeDataPartState.Committed,
          MergeTreeDataPartState.Outdated] with
    | some p => acc + p.bytes_on_disk
    | none => acc) 0

/-- Translation of `ReplicatedMergeTreeQueue::shouldExecuteLogEntry`; the
chain of early `return false` exits becomes a chain of conditionals. -/
def shouldExecuteLogEntry (rq : ReplicatedMergeTreeQueue) (entry : LogEntry)
    (merger : MergeTreeDataMergerModel) (data : MergeTreeDataModel) : Bool :=
  if (entry.type = LogEntryType.MERGE_PARTS ∨ entry.type = LogEntryType.GET_PART
      ∨ entry.type = LogEntryType.ATTACH_PART ∨ entry.type = LogEntryType.MUTATE_PART)
     ∧ isNotCoveredByFuturePartsImpl rq entry.new_part_name = false then false
  else if (entry.type = LogEntryType.MERGE_PARTS ∨ entry.type = LogEntryType.MUTATE_PART)
     ∧ entry.parts_to_merge.any (fun n => rq.future_parts.contains n) = true then false
  else if (entry.type = LogEntryType.MERGE_PARTS ∨ entry.type = LogEntryType.MUTATE_PART)
     ∧ merger.merges_blocker_cancelled = true then false
  else if (entry.type = LogEntryType.MERGE_PARTS ∨ entry.type = LogEntryType.MUTATE_PART)
     ∧ merger.max_parts_size_for_merge ≠ data.max_bytes_to_merge_at_max_space_in_pool
     ∧ sumPartsSizeInBytes data entry.parts_to_merge > merger.max_parts_size_for_merge then false
  else if entry.type = LogEntryType.CLEAR_COLUMN
     ∧ getConflictsForClearColumnCommand rq entry ≠ [] then false
  else true

/-- Translation of
`ReplicatedMergeTreeQueue::getCurrentMutationVersion`. -/
def getCurrentMutationVersion (rq : ReplicatedMergeTreeQueue) (part_info : MergeTreePartInfo) : Int :=
  match List.lookup part_info.partition_id rq.mutations_by_partition with
  | none => -1
  | some in_partition =>
    let data_version := if part_info.version ≠ 0 then part_info.version else part_info.min_block
    match mapUpperBoundPrev in_partition data_version with
    | none => -1
    | some p => p.1

/-- The two gap checks of `canMergeParts` for a non-empty block gap
`(lm, rm)`: an ephemeral insert block number strictly inside the gap, or
a not-yet-ready part of `next_virtual_parts` covered by the gap. -/
def gapBlocked (rq : ReplicatedMergeTreeQueue) (partition_id : String) (lm rm : Int) : Bool :=
  (match List.lookup partition_id rq.current_inserts with
   | some ephemeral_block_numbers =>
     match setUpperBound ephemeral_block_numbers lm with
     | some b => decide (b < rm)
     | none => false
   | none => false)
  || !(ActiveDataPartSet.getPartsCoveredBy rq.next_virtual_parts
        { partition_id := partition_id, min_block := lm + 1, max_block := rm - 1,
          level := 999999999, version := 0 }).isEmpty

/-- Translation of `ReplicatedMergeTreeQueue::canMergeParts` (the
`out_reason` strings are dropped; a data part is its name, identified
with its info). -/
def canMergeParts (rq : ReplicatedMergeTreeQueue) (left right : PartName) : Bool :=
  if left = right then false
  else if left.partition_id ≠ right.partition_id then false
  else if !([left, right].all (fun part =>
      decide (ActiveDataPartSet.getContainingPart rq.virtual_parts part = some part)
      && decide (rq.last_quorum_part ≠ some part)
      && decide (rq.inprogress_quorum_part ≠ some part))) then false
  else
    let lm := if left.max_block > right.min_block then right.min_block else left.max_block
    let rm := if left.max_block > right.min_block then left.max_block else right.min_block
    if lm + 1 < rm ∧ gapBlocked rq left.partition_id lm rm = true then false
    else if getCurrentMutationVersion rq left ≠ getCurrentMutationVersion rq right then false
    else true

/-- Translation of `ReplicatedMergeTreeQueue::getMutationCommands`.  The
iteration runs from `begin = upper_bound(data_version)` to
`end = ++find(desired_mutation_version)`, rendered by list positions
`beginIdx` and `i + 1`; the function only reads the queue state,
matching the C++ `const` qualifier.  When `i + 1 < beginIdx` the C++
`begin` iterator lies strictly past `end`, so the loop condition
`it != end` never holds at `end` and the loop increments the iterator
past the end of the `std::map`: undefined behavior, rendered as `none`
(when `i + 1 = beginIdx` the two iterators coincide and the loop runs
zero times, which is well defined). -/
def getMutationCommands (rq : ReplicatedMergeTreeQueue) (part_info : MergeTreePartInfo)
    (desired_mutation_version : Int) : Option (Except String (List MutationCommand)) :=
  match List.lookup part_info.partition_id rq.mutations_by_partition with
  | none => some (Except.error ("There are no mutations for partition ID"))
  | some in_partition =>
    let data_version := if part_info.version ≠ 0 then part_info.version else part_info.min_block
    let beginIdx := (in_partition.takeWhile (fun p => decide (p.1 ≤ data_version))).length
    match in_partition.findIdx? (fun p => decide (p.1 = desired_mutation_version)) with
    | none => some (Except.error ("Mutation with the desired version not found in partition"))
    | some i =>
      if i + 1 < beginIdx then none
      else
        some (Except.ok ((((in_partition.drop beginIdx).take (i + 1 - beginIdx)).map
          (fun p => p.2.commands)).flatten))

/-- Erase block number `k` of partition `pid` from the mutation index,
dropping the partition key when its map becomes empty (the inner loop of
the obsolete-mutation purge in `updateMutations`). -/
def mbpEraseBlock (mbp : MutationsByPartition) (pid : String) (k : Int) : MutationsByPartition :=
  mbp.foldr (fun e acc =>
    if e.1 = pid then
      let pruned := e.2.filter (fun p => decide (p.1 ≠ k))
      if pruned.isEmpty then acc else (e.1, pruned) :: acc
    else e :: acc) []

/-- `std::map::emplace` on the per-partition mutation map: keep the list
sorted by key, do not overwrite an existing key. -/
def pmEmplace : List (Int × ReplicatedMergeTreeMutationEntry) → Int →
    ReplicatedMergeTreeMutationEntry → List (Int × ReplicatedMergeTreeMutationEntry)
  | [], k, m => [(k, m)]
  | p :: t, k, m =>
    if k < p.1 then (k, m) :: p :: t
    else if k = p.1 then p :: t
    else p :: pmEmplace t k m

/-- `mutations_by_partition[pid].emplace(k, m)`: operator `[]` creates the
partition entry when missing. -/
def mbpEmplace (mbp : MutationsByPartition) (pid : String) (k : Int)
    (m : ReplicatedMergeTreeMutationEntry) : MutationsByPartition :=
  if (List.lookup pid mbp).isSome then
    mbp.map (fun e => if e.1 = pid then (e.1, pmEmplace e.2 k m) else e)
  else mbp ++ [(pid, [(k, m)])]

/-- The purge loop of `updateMutations`: remove leading local mutations
whose `znode_name` is below the smallest coordinator entry, erasing their
block numbers from the mutation index; the loop breaks at the first
mutation at or above `front`. -/
def purgeObsoleteMutations (front : String) :
    List ReplicatedMergeTreeMutationEntry → MutationsByPartition →
    List ReplicatedMergeTreeMutationEntry × MutationsByPartition
  | [], mbp => ([], mbp)
  | m :: rest, mbp =>
    if m.znode_name < front then
      purgeObsoleteMutations front rest
        (m.block_numbers.foldl (fun acc kv => mbpEraseBlock acc kv.1 kv.2) mbp)
    else (m :: rest, mbp)

/-- Translation of `ReplicatedMergeTreeQueue::updateMutations`:
`entries_in_zk` is the child list of the shared mutations node (the code
sorts it), and `fetch` stands for the parallel `asyncGet` plus parse of
one entry body, returning its block numbers and commands; the parsed
`znode_name` of the parsed entry is the child name. -/
def updateMutations (rq : ReplicatedMergeTreeQueue) (entries_in_zk : List String)
    (fetch : String → List (String × Int) × List MutationCommand) : ReplicatedMergeTreeQueue :=
  let sorted_zk := List.insertionSort (· ≤ ·) entries_in_zk
  let purged :=
    match sorted_zk with
    | [] => ([], [])
    | front :: _ => purgeObsoleteMutations front rq.mutations rq.mutations_by_partition
  let entries_to_load :=
    match purged.1.getLast? with
    | none => sorted_zk
    | some back => (sorted_zk.reverse.takeWhile (fun e => decide (back.znode_name < e))).reverse
  let new_mutations := entries_to_load.map (fun name =>
    { znode_name := name, block_numbers := (fetch name).1, commands := (fetch name).2 })
  let mbp := new_mutations.foldl (fun acc m =>
    m.block_numbers.foldl (fun acc2 kv => mbpEmplace acc2 kv.1 kv.2 m) acc) purged.2
  { rq with mutations := purged.1 ++ new_mutations, mutations_by_partition := mbp }

/-- Translation of the `CurrentlyExecuting` constructor, acting on the
queue entry at position `i`: tag it executing, bump `num_tries`, stamp
`last_attempt_time` and insert its `new_part_name` into `future_parts`.
A duplicate insertion throws in the C++ (the handle is never built), so
that case yields `none`. -/
def currentlyExecutingCtor (rq : ReplicatedMergeTreeQueue) (i : Nat) (now : Nat) :
    Option ReplicatedMergeTreeQueue :=
  match rq.queue[i]? with
  | none => none
  | some entry =>
    if rq.future_parts.contains entry.new_part_name then none
    else
      let tagged := { entry with
        currently_executing := true
        num_tries := entry.num_tries + 1
        last_attempt_time := now }
      some { rq with
        queue := rq.queue.set i tagged
        future_parts := entry.new_part_name :: rq.future_parts }

/-- Translation of `CurrentlyExecuting::setActualPartName`, acting on the
queue entry at position `i`.  The C++ throws when the actual name is
already set or when a distinct actual name is already a future part, and
its only call site passes the entry held by a live `CurrentlyExecuting`
handle, hence the `currently_executing` guard. -/
def setActualPartName (rq : ReplicatedMergeTreeQueue) (i : Nat) (actual : PartName) :
    Option ReplicatedMergeTreeQueue :=
  match rq.queue[i]? with
  | none => none
  | some entry =>
    if entry.currently_executing = false then none
    else if entry.actual_new_part_name ≠ none then none
    else
      let renamed := { entry with actual_new_part_name := some actual }
      if actual = entry.new_part_name then
        some { rq with queue := rq.queue.set i renamed }
      else if rq.future_parts.contains actual then none
      else
        some { rq with
          queue := rq.queue.set i renamed
          future_parts := actual :: rq.future_parts }

/-- Translation of the `CurrentlyExecuting` destructor, acting on the
queue entry at position `i` (a handle exists exactly for an entry tagged
executing): clear the flag, erase `new_part_name` from `future_parts`,
erase `actual_new_part_name` too when set and distinct, then clear it. -/
def currentlyExecutingDtor (rq : ReplicatedMergeTreeQueue) (i : Nat) :
    Option ReplicatedMergeTreeQueue :=
  match rq.queue[i]? with
  | none => none
  | some entry =>
    if entry.currently_executing = false then none
    else
      let fp := rq.future_parts.erase entry.new_part_name
      let fp2 :=
        match entry.actual_new_part_name with
        | some actual => if actual ≠ entry.new_part_name then fp.erase actual else fp
        | none => fp
      let untagged := { entry with
        currently_executing := false
        actual_new_part_name := none }
      some { rq with
        queue := rq.queue.set i untagged
        future_parts := fp2 }

/-- Queue states reachable under the translated mutating operations:
from the fresh queue, by inserting parsed log entries (parsed entries
are not executing and have no actual part name), by the construction,
actual-part-naming and destruction of `CurrentlyExecuting` handles, and
by the three queue-removal operations (`remove` on an entry, `remove` on
a part name, `removePartProducingOpsInRange`), which erase entries —
currently executing ones included — without touching `future_parts`. -/
inductive Reachable : ReplicatedMergeTreeQueue → Prop where
  | init : Reachable empty
  | insert {rq : ReplicatedMergeTreeQueue} (entry : LogEntry) :
      Reachable rq → entry.currently_executing = false →
      entry.actual_new_part_name = none → Reachable (insertUnlocked rq entry)
  | ctor {rq rq' : ReplicatedMergeTreeQueue} (i now : Nat) :
      Reachable rq → currentlyExecutingCtor rq i now = some rq' → Reachable rq'
  | setActual {rq rq' : ReplicatedMergeTreeQueue} (i : Nat) (actual : PartName) :
      Reachable rq → setActualPartName rq i actual = some rq' → Reachable rq'
  | dtor {rq rq' : ReplicatedMergeTreeQueue} (i : Nat) :
      Reachable rq → currentlyExecutingDtor rq i = some rq' → Reachable rq'
  | removeEntry {rq : ReplicatedMergeTreeQueue} (entry : LogEntry) :
      Reachable rq → Reachable (ReplicatedMergeTreeQueue.remove rq entry)
  | removeByName {rq : ReplicatedMergeTreeQueue} (part_name : PartName) :
      Reachable rq → Reachable (removeByPartName rq part_name).1
  | removeRange {rq : ReplicatedMergeTreeQueue} (part_name : PartName) :
      Reachable rq → Reachable (removePartProducingOpsInRange rq part_name)

/-- The part names an entry accounts for in `future_parts`: when
executing, its `new_part_name` plus its actual part name when set and
distinct. -/
def execNames (e : LogEntry) : List PartName :=
  if e.currently_executing then
    e.new_part_name ::
      (match e.actual_new_part_name with
       | some actual => if actual ≠ e.new_part_name then [actual] else []
       | none => [])
  else []

/-- All part names accounted for by executing entries of the queue. -/
def claimedNames (rq : ReplicatedMergeTreeQueue) : List PartName :=
  rq.queue.flatMap execNames

/-- Invariant 2 of the spec: `future_parts` contains exactly the
`new_part_name` of every executing entry plus its actual part name when
set and distinct. -/
def futurePartsExact (rq : ReplicatedMergeTreeQueue) : Prop :=
  ∀ name : PartName, name ∈ rq.future_parts ↔
    ∃ e ∈ rq.queue, e.currently_executing = true ∧
      (name = e.new_part_name ∨ (e.actual_new_part_name = some name ∧ name ≠ e.new_part_name))

/-- Strengthened form of the invariant used for the induction:
`future_parts` is a permutation of the names accounted for by executing
entries, those names are pairwise distinct, and a non-executing entry
has no actual part name. -/
def queueStateWF (rq : ReplicatedMergeTreeQueue) : Prop :=
  rq.future_parts.Perm (claimedNames rq) ∧ (claimedNames rq).Nodup ∧
    ∀ e ∈ rq.queue, e.currently_executing = false → e.actual_new_part_name = none

/-- The containment direction of invariant 2 of the spec (its quantified
form in section 8): every queue entry with `currently_executing = true`
has its `new_part_name` in `future_parts`, and also its
`actual_new_part_name` when set and distinct from `new_part_name`. -/
def futurePartsContain (rq : ReplicatedMergeTreeQueue) : Prop :=
  ∀ e ∈ rq.queue, e.currently_executing = true →
    e.new_part_name ∈ rq.future_parts ∧
    ∀ a, e.actual_new_part_name = some a → a ≠ e.new_part_name → a ∈ rq.future_parts

/-- Strengthened form of the containment invariant used for the
induction over all reachable states: every name accounted for by an
executing queue entry is a future part, `future_parts` has no
duplicates, distinct claims own distinct names, and a non-executing
entry has no actual part name.  Unlike `queueStateWF` this survives the
removal operations, which may leave names of erased executing entries
behind in `future_parts`. -/
def queueStateSound (rq : ReplicatedMergeTreeQueue) : Prop :=
  (∀ n ∈ claimedNames rq, n ∈ rq.future_parts)
  ∧ rq.future_parts.Nodup
  ∧ (claimedNames rq).Nodup
  ∧ ∀ e ∈ rq.queue, e.currently_executing = false → e.actual_new_part_name = none

/-- The state reached by inserting one parsed GET_PART entry into the
fresh queue, tagging it executing through the `CurrentlyExecuting`
constructor (which puts `all_1_1_0` into `future_parts`), and then
removing the entry with `remove` — as `processEntry` does after
executing an entry, while the handle is still alive.  The first
argument of `remove` below is the queue state after the first two
steps, the second is the tagged entry held by the handle. -/
def removedExecutingExample : ReplicatedMergeTreeQueue :=
  ReplicatedMergeTreeQueue.remove
    ⟨[⟨"queue-1", LogEntryType.GET_PART, ⟨"all", 1, 1, 0, 0⟩, [], 0, true, 1, 5, none⟩],
      [⟨"queue-1", LogEntryType.GET_PART, ⟨"all", 1, 1, 0, 0⟩, [], 0, false, 0, 0, none⟩],
      [⟨"all", 1, 1, 0, 0⟩], 0, 0, [], [⟨"all", 1, 1, 0, 0⟩], [], [], [], none, none⟩
    ⟨"queue-1", LogEntryType.GET_PART, ⟨"all", 1, 1, 0, 0⟩, [], 0, true, 1, 5, none⟩

end ReplicatedMergeTreeQueue

open ReplicatedMergeTreeQueue

/-! ### Generic helper lemmas -/

theorem mem_of_getElemOpt {α : Type} {l : List α} {i : Nat} {a : α} (h : l[i]? = some a) : a ∈ l := by
  obtain ⟨hlt, rfl⟩ := List.getElem?_eq_some_iff.mp h
  exact List.getElem_mem hlt

theorem contains_eq_true_iff {α : Type} [DecidableEq α] {l : List α} {a : α} :
    l.contains a = true ↔ a ∈ l := List.elem_iff

theorem pairwise_lt_of_le_nodup {α : Type} [LinearOrder α] {l : List α}
    (hle : l.Pairwise (· ≤ ·)) (hnd : l.Nodup) : l.Pairwise (· < ·) :=
  (hle.and hnd).imp (fun h => lt_of_le_of_ne h.1 h.2)

theorem mem_dropWhile_of_mem {α : Type} {p : α → Bool} {l : List α} {a : α} :
    a ∈ l → p a = false → a ∈ l.dropWhile p := by
  induction l with
  | nil => intro h _; cases h
  | cons x t ih =>
    intro ha hpa
    rw [List.dropWhile_cons]
    rcases List.mem_cons.mp ha with rfl | ha2
    · simp [hpa]
    · split
      · exact ih ha2 hpa
      · exact List.mem_cons_of_mem _ ha2

/-! ### Helper lemmas about the queue operations -/

theorem ActiveDataPartSet.mem_add (parts : List PartName) (n : PartName) :
    n ∈ ActiveDataPartSet.add parts n := by
  unfold ActiveDataPartSet.add
  dsimp only
  split
  · exact contains_eq_true_iff.mp (by assumption)
  · exact List.mem_cons_self ..

theorem insertUnlocked_queue_shape (rq : ReplicatedMergeTreeQueue) (e : LogEntry) :
    (insertUnlocked rq e).future_parts = rq.future_parts
    ∧ (insertUnlocked rq e).virtual_parts = rq.virtual_parts
    ∧ ((insertUnlocked rq e).queue = rq.queue ++ [e] ∨ (insertUnlocked rq e).queue = e :: rq.queue) := by
  unfold insertUnlocked
  split <;> split <;> simp_all

/-! ### C10: DROP_RANGE entries are never postponed -/

/-- C10: for every entry of type DROP_RANGE, `shouldExecuteLogEntry`
returns true for every queue state, merger state and part store: none of
the admission checks (future-parts coverage, prerequisite parts, merge
size, cancel flag, clear-column conflicts) applies to DROP_RANGE. -/
theorem shouldExecuteLogEntry_drop_range (rq : ReplicatedMergeTreeQueue) (entry : LogEntry)
    (merger : MergeTreeDataMergerModel) (data : MergeTreeDataModel)
    (h : entry.type = LogEntryType.DROP_RANGE) :
    shouldExecuteLogEntry rq entry merger data = true := by
  simp [shouldExecuteLogEntry, h]

/-- Witness for C10 at a concrete DROP_RANGE entry in the fresh queue. -/
theorem shouldExecuteLogEntry_drop_range_witness :
    shouldExecuteLogEntry ReplicatedMergeTreeQueue.empty
      ⟨"queue-1", LogEntryType.DROP_RANGE, ⟨"all", 1, 2, 0, 0⟩, [], 0, false, 0, 0, none⟩
      ⟨false, 0⟩ ⟨[], 0⟩ = true :=
  shouldExecuteLogEntry_drop_range _ _ _ _ rfl

/-! ### C9: merge-size and cancellation checks for MERGE_PARTS and MUTATE_PART -/

/-- C9: for a MERGE_PARTS or MUTATE_PART entry that passes the
future-parts coverage check and whose source parts are not being
produced, `shouldExecuteLogEntry` postpones when the merge executor is
cancelled; postpones when the current merge-size limit of the executor is
below the configured maximum and the total on-disk byte size of the
locally present source parts (states PreCommitted, Committed, Outdated)
exceeds that limit; and admits the entry whenever the limit equals the
configured maximum and the executor is not cancelled, regardless of the
sum. -/
theorem shouldExecuteLogEntry_merge_size (rq : ReplicatedMergeTreeQueue) (entry : LogEntry)
    (merger : MergeTreeDataMergerModel) (data : MergeTreeDataModel)
    (htype : entry.type = LogEntryType.MERGE_PARTS ∨ entry.type = LogEntryType.MUTATE_PART)
    (hcov : isNotCoveredByFuturePartsImpl rq entry.new_part_name = true)
    (hpre : ∀ n ∈ entry.parts_to_merge, rq.future_parts.contains n = false) :
    (merger.merges_blocker_cancelled = true →
      shouldExecuteLogEntry rq entry merger data = false)
    ∧ (merger.max_parts_size_for_merge ≠ data.max_bytes_to_merge_at_max_space_in_pool →
        sumPartsSizeInBytes data entry.parts_to_merge > merger.max_parts_size_for_merge →
        shouldExecuteLogEntry rq entry merger data = false)
    ∧ (merger.max_parts_size_for_merge = data.max_bytes_to_merge_at_max_space_in_pool →
        merger.merges_blocker_cancelled = false →
        shouldExecuteLogEntry rq entry merger data = true) := by
  have hmem : ∀ n ∈ entry.parts_to_merge, n ∉ rq.future_parts := by
    intro n hn hin
    have h1 := contains_eq_true_iff.mpr hin
    rw [hpre n hn] at h1
    cases h1
  have hany : entry.parts_to_merge.any (fun n => rq.future_parts.contains n) = false := by
    rw [List.any_eq_false]
    intro n hn
    show ¬ rq.future_parts.contains n = true
    rw [hpre n hn]
    simp
  rcases htype with h | h <;>
    refine ⟨fun hc => ?_, fun hne hgt => ?_, fun heq hnc => ?_⟩ <;>
    simp [shouldExecuteLogEntry, h, hcov, hany, *] <;>
    exact hmem

/-- Witness for C9: a concrete MERGE_PARTS entry with a cancelled merge
executor is postponed. -/
theorem shouldExecuteLogEntry_merge_size_witness :
    shouldExecuteLogEntry ReplicatedMergeTreeQueue.empty
      ⟨"queue-2", LogEntryType.MERGE_PARTS, ⟨"all", 1, 2, 1, 0⟩, [⟨"all", 1, 1, 0, 0⟩], 0, false, 0, 0, none⟩
      ⟨true, 0⟩ ⟨[], 0⟩ = false :=
  (shouldExecuteLogEntry_merge_size ReplicatedMergeTreeQueue.empty
    ⟨"queue-2", LogEntryType.MERGE_PARTS, ⟨"all", 1, 2, 1, 0⟩, [⟨"all", 1, 1, 0, 0⟩], 0, false, 0, 0, none⟩
    ⟨true, 0⟩ ⟨[], 0⟩ (Or.inl rfl) rfl (by simp [ReplicatedMergeTreeQueue.empty])).1 rfl

/-! ### C7: insertUnlocked -/

theorem mem_insertsByTimeInsert (l : List LogEntry) (e : LogEntry)
    (h : ∀ x ∈ l, x.create_time ≠ e.create_time ∨ x.znode_name ≠ e.znode_name) :
    e ∈ insertsByTimeInsert l e := by
  induction l with
  | nil => simp [insertsByTimeInsert]
  | cons x t ih =>
    rw [insertsByTimeInsert]
    by_cases h1 : byTimeLt e x
    · simp [h1]
    · by_cases h2 : byTimeLt x e
      · simp only [h1, h2, if_true, if_false, Bool.false_eq_true]
        exact List.mem_cons_of_mem _ (ih (fun y hy => h y (List.mem_cons_of_mem _ hy)))
      · exfalso
        have hx := h x (List.mem_cons_self ..)
        simp only [byTimeLt, Bool.or_eq_true, Bool.and_eq_true, decide_eq_true_eq,
          not_or, not_and] at h1 h2
        have hct : x.create_time = e.create_time := by omega
        have hzn : x.znode_name = e.znode_name :=
          le_antisymm (le_of_not_lt (fun hl => h1.2 hct.symm hl)) (le_of_not_lt (fun hl => h2.2 hct hl))
        rcases hx with hx | hx
        · exact hx hct
        · exact hx hzn

/-- C7: `insertUnlocked` adds the `new_part_name` of the entry to
`next_virtual_parts`; pushes the entry to the front of `queue` for
DROP_RANGE and to the back for every other type; for GET_PART it
additionally inserts the entry into `inserts_by_time` and lowers
`min_unprocessed_insert_time` to the nonzero entry `create_time` when
that is below the current value or the current value is zero; for other
types it leaves `inserts_by_time` and the time untouched.  The
hypothesis says no stored insert has the same `(create_time,
znode_name)` key, which is what `std::set::insert` membership needs. -/
theorem insertUnlocked_spec (rq : ReplicatedMergeTreeQueue) (entry : LogEntry)
    (h : ∀ x ∈ rq.inserts_by_time, x.create_time ≠ entry.create_time ∨ x.znode_name ≠ entry.znode_name) :
    entry.new_part_name ∈ (insertUnlocked rq entry).next_virtual_parts
    ∧ (entry.type = LogEntryType.DROP_RANGE → (insertUnlocked rq entry).queue = entry :: rq.queue)
    ∧ (entry.type ≠ LogEntryType.DROP_RANGE → (insertUnlocked rq entry).queue = rq.queue ++ [entry])
    ∧ (entry.type = LogEntryType.GET_PART →
        entry ∈ (insertUnlocked rq entry).inserts_by_time
        ∧ (insertUnlocked rq entry).min_unprocessed_insert_time =
            (if entry.create_time ≠ 0
                ∧ (rq.min_unprocessed_insert_time = 0
                    ∨ entry.create_time < rq.min_unprocessed_insert_time)
             then entry.create_time else rq.min_unprocessed_insert_time))
    ∧ (entry.type ≠ LogEntryType.GET_PART →
        (insertUnlocked rq entry).inserts_by_time = rq.inserts_by_time
        ∧ (insertUnlocked rq entry).min_unprocessed_insert_time = rq.min_unprocessed_insert_time) := by
  by_cases hd : entry.type = LogEntryType.DROP_RANGE
  · have hg : entry.type ≠ LogEntryType.GET_PART := by rw [hd]; intro hc; cases hc
    refine ⟨?_, ?_, ?_, ?_, ?_⟩ <;>
      simp [insertUnlocked, hd, hg, ActiveDataPartSet.mem_add]
  · by_cases hg : entry.type = LogEntryType.GET_PART
    · refine ⟨?_, ?_, ?_, ?_, ?_⟩ <;>
        simp [insertUnlocked, hd, hg, ActiveDataPartSet.mem_add, mem_insertsByTimeInsert _ _ h]
    · refine ⟨?_, ?_, ?_, ?_, ?_⟩ <;>
        simp [insertUnlocked, hd, hg, ActiveDataPartSet.mem_add]

/-- Witness for C7 at a concrete GET_PART entry inserted into the fresh
queue: the entry is appended at the back of the queue. -/
theorem insertUnlocked_spec_witness :
    (insertUnlocked ReplicatedMergeTreeQueue.empty
        ⟨"queue-4", LogEntryType.GET_PART, ⟨"all", 3, 3, 0, 0⟩, [], 7, false, 0, 0, none⟩).queue =
      ReplicatedMergeTreeQueue.empty.queue ++
        [⟨"queue-4", LogEntryType.GET_PART, ⟨"all", 3, 3, 0, 0⟩, [], 7, false, 0, 0, none⟩] :=
  (insertUnlocked_spec ReplicatedMergeTreeQueue.empty
      ⟨"queue-4", LogEntryType.GET_PART, ⟨"all", 3, 3, 0, 0⟩, [], 7, false, 0, 0, none⟩
      (by simp [ReplicatedMergeTreeQueue.empty])).2.2.1 (by decide)

/-! ### C8: load is idempotent on the queue -/

theorem foldl_insertUnlocked_mem (fetch : String → LogEntry) :
    ∀ (cs : List String) (st : ReplicatedMergeTreeQueue) (e : LogEntry), e ∈ st.queue →
      e ∈ (cs.foldl (fun s c => insertUnlocked s { fetch c with znode_name := c }) st).queue := by
  intro cs
  induction cs with
  | nil => intro st e he; exact he
  | cons c t ih =>
    intro st e he
    refine ih _ e ?_
    rcases (insertUnlocked_queue_shape st { fetch c with znode_name := c }).2.2 with hq | hq <;>
      rw [hq] <;> simp [he]

theorem foldl_insertUnlocked_names (fetch : String → LogEntry) :
    ∀ (cs : List String) (st : ReplicatedMergeTreeQueue) (c : String), c ∈ cs →
      c ∈ (cs.foldl (fun s c => insertUnlocked s { fetch c with znode_name := c }) st).queue.map
        (fun e => e.znode_name) := by
  intro cs
  induction cs with
  | nil => intro st c hc; cases hc
  | cons x t ih =>
    intro st c hc
    rcases List.mem_cons.mp hc with rfl | hc2
    · have hmem : ({ fetch c with znode_name := c } : LogEntry) ∈
          (insertUnlocked st { fetch c with znode_name := c }).queue := by
        rcases (insertUnlocked_queue_shape st { fetch c with znode_name := c }).2.2 with hq | hq <;>
          rw [hq] <;> simp
      have := foldl_insertUnlocked_mem fetch t _ _ hmem
      exact List.mem_map.mpr ⟨_, this, rfl⟩
    · exact ih _ c hc2

/-- C8: `load` run twice against the same coordinator children is a no-op
on `queue` the second time: after the first call every child name is
among the znode names of queued entries, so the second call filters out
every child and inserts nothing. -/
theorem load_idempotent (rq : ReplicatedMergeTreeQueue) (children : List String)
    (fetch : String → LogEntry) :
    (∀ c ∈ children, c ∈ (load rq children fetch).queue.map (fun e => e.znode_name))
    ∧ (load (load rq children fetch) children fetch).queue = (load rq children fetch).queue := by
  have hnames : ∀ c ∈ children, c ∈ (load rq children fetch).queue.map (fun e => e.znode_name) := by
    intro c hc
    by_cases hold : c ∈ rq.queue.map (fun e => e.znode_name)
    · obtain ⟨e, he, rfl⟩ := List.mem_map.mp hold
      exact List.mem_map.mpr ⟨e, foldl_insertUnlocked_mem fetch _ rq e he, rfl⟩
    · have hfresh : c ∈ children.filter
          (fun c => !(rq.queue.map (fun e => e.znode_name)).contains c) := by
        refine List.mem_filter.mpr ⟨hc, ?_⟩
        simp only [Bool.not_eq_true']
        cases hcontains : (rq.queue.map (fun e => e.znode_name)).contains c
        · rfl
        · exact absurd (contains_eq_true_iff.mp hcontains) hold
      have hsorted : c ∈ List.insertionSort (· ≤ ·)
          (children.filter (fun c => !(rq.queue.map (fun e => e.znode_name)).contains c)) :=
        (List.perm_insertionSort _ _).mem_iff.mpr hfresh
      exact foldl_insertUnlocked_names fetch _ rq c hsorted
  refine ⟨hnames, ?_⟩
  have hfilter : (children.filter
      (fun c => !((load rq children fetch).queue.map (fun e => e.znode_name)).contains c)) = [] := by
    rw [List.filter_eq_nil_iff]
    intro c hc
    simp only [Bool.not_eq_true', Bool.not_eq_false]
    exact contains_eq_true_iff.mpr (hnames c hc)
  conv_lhs => rw [load]
  rw [hfilter]
  rfl

/-! ### Helper lemmas for canMergeParts -/

theorem setUpperBound_spec (s : List Int) (hs : s.Pairwise (· < ·)) (x : Int) :
    (∀ b, setUpperBound s x = some b → b ∈ s ∧ x < b ∧ ∀ y ∈ s, x < y → b ≤ y)
    ∧ (setUpperBound s x = none → ∀ y ∈ s, y ≤ x) := by
  induction s with
  | nil => simp [setUpperBound]
  | cons v t ih =>
    have iht := ih (List.Pairwise.of_cons hs)
    rw [setUpperBound, List.dropWhile_cons]
    by_cases hv : v ≤ x
    · rw [if_pos (by simpa using hv)]
      rw [show (List.dropWhile (fun b => decide (b ≤ x)) t).head? = setUpperBound t x from rfl]
      constructor
      · intro b hb
        obtain ⟨hmem, hlt, hmin⟩ := iht.1 b hb
        refine ⟨List.mem_cons_of_mem _ hmem, hlt, ?_⟩
        intro y hy hxy
        rcases List.mem_cons.mp hy with rfl | hy2
        · omega
        · exact hmin y hy2 hxy
      · intro hn y hy
        rcases List.mem_cons.mp hy with rfl | hy2
        · exact hv
        · exact iht.2 hn y hy2
    · rw [if_neg (by simpa using hv)]
      simp only [List.head?_cons]
      constructor
      · intro b hb
        injection hb with hb
        subst hb
        refine ⟨List.mem_cons_self .., by omega, ?_⟩
        intro y hy _
        rcases List.mem_cons.mp hy with rfl | hy2
        · exact le_refl _
        · exact le_of_lt (List.rel_of_pairwise_cons hs hy2)
      · intro hn
        cases hn

theorem gapBlocked_iff (rq : ReplicatedMergeTreeQueue) (pid : String) (lm rm : Int)
    (hsort : ∀ l, List.lookup pid rq.current_inserts = some l → l.Pairwise (· < ·)) :
    gapBlocked rq pid lm rm = true ↔
      (∃ l, List.lookup pid rq.current_inserts = some l ∧ ∃ b ∈ l, lm < b ∧ b < rm)
      ∨ ∃ q ∈ rq.next_virtual_parts,
          MergeTreePartInfo.contains ⟨pid, lm + 1, rm - 1, 999999999, 0⟩ q = true := by
  rw [gapBlocked, Bool.or_eq_true]
  apply or_congr
  · cases hlk : List.lookup pid rq.current_inserts with
    | none => simp
    | some l =>
      have hspec := setUpperBound_spec l (hsort l hlk) lm
      simp only []
      cases hub : setUpperBound l lm with
      | none =>
        simp only []
        constructor
        · intro hc; cases hc
        · rintro ⟨l2, hl2, b, hb, h1, h2⟩
          injection hl2 with hl2
          subst hl2
          exact absurd (hspec.2 hub b hb) (by omega)
      | some b0 =>
        obtain ⟨hmem, hlt, hmin⟩ := hspec.1 b0 hub
        simp only [decide_eq_true_eq]
        constructor
        · intro hc
          exact ⟨l, rfl, b0, hmem, hlt, hc⟩
        · rintro ⟨l2, hl2, b, hb, h1, h2⟩
          injection hl2 with hl2
          subst hl2
          exact lt_of_le_of_lt (hmin b hb h1) h2
  · simp only [Bool.not_eq_true', List.isEmpty_eq_false_iff_exists_mem]
    constructor
    · rintro ⟨q, hq⟩
      obtain ⟨hmem, hpred⟩ := List.mem_filter.mp hq
      exact ⟨q, hmem, hpred⟩
    · rintro ⟨q, hmem, hpred⟩
      exact ⟨q, List.mem_filter.mpr ⟨hmem, hpred⟩⟩

theorem contains_gap_mono (pid : String) (lm rm lm2 rm2 : Int) (q : PartName)
    (h1 : lm2 ≤ lm) (h2 : rm ≤ rm2)
    (h : MergeTreePartInfo.contains ⟨pid, lm + 1, rm - 1, 999999999, 0⟩ q = true) :
    MergeTreePartInfo.contains ⟨pid, lm2 + 1, rm2 - 1, 999999999, 0⟩ q = true := by
  simp only [MergeTreePartInfo.contains, Bool.and_eq_true, decide_eq_true_eq] at h ⊢
  refine ⟨⟨⟨h.1.1.1, by omega⟩, by omega⟩, h.2⟩

theorem canMergeParts_eq_true_iff (rq : ReplicatedMergeTreeQueue) (left right : PartName) :
    canMergeParts rq left right = true ↔
      (¬ left = right) ∧ left.partition_id = right.partition_id
      ∧ ([left, right].all (fun part =>
          decide (ActiveDataPartSet.getContainingPart rq.virtual_parts part = some part)
          && decide (rq.last_quorum_part ≠ some part)
          && decide (rq.inprogress_quorum_part ≠ some part)) = true)
      ∧ ¬((if left.max_block > right.min_block then right.min_block else left.max_block) + 1 <
            (if left.max_block > right.min_block then left.max_block else right.min_block)
          ∧ gapBlocked rq left.partition_id
              (if left.max_block > right.min_block then right.min_block else left.max_block)
              (if left.max_block > right.min_block then left.max_block else right.min_block) = true)
      ∧ getCurrentMutationVersion rq left = getCurrentMutationVersion rq right := by
  unfold canMergeParts
  dsimp only
  split_ifs with h1 h2 h3 h4 h5 <;> simp_all <;> tauto

/-! ### C3: ephemeral-block check and exact adjacency in canMergeParts -/

/-- C3: writing `lm`/`rm` for the gap bounds after the operand swap
(`lm = min(left.max, right.min)`, `rm = max(left.max, right.min)`),
`canMergeParts` returns false whenever some ephemeral block number `b`
of `current_inserts` for the partition of the left part satisfies
`lm < b < rm` (such a `b` makes the gap non-empty); and when the pair is
exactly adjacent (`lm + 1 = rm`) the result does not depend on
`current_inserts` or `next_virtual_parts` at all — neither gap check is
performed. -/
theorem canMergeParts_gap_checks (rq : ReplicatedMergeTreeQueue) (left right : PartName) :
    ((∃ l, List.lookup left.partition_id rq.current_inserts = some l ∧ l.Pairwise (· < ·) ∧
        ∃ b ∈ l,
          (if left.max_block > right.min_block then right.min_block else left.max_block) < b ∧
          b < (if left.max_block > right.min_block then left.max_block else right.min_block)) →
      canMergeParts rq left right = false)
    ∧ ((if left.max_block > right.min_block then right.min_block else left.max_block) + 1 =
        (if left.max_block > right.min_block then left.max_block else right.min_block) →
      ∀ ci ci2 nvp nvp2,
        canMergeParts { rq with current_inserts := ci, next_virtual_parts := nvp } left right =
        canMergeParts { rq with current_inserts := ci2, next_virtual_parts := nvp2 } left right) := by
  constructor
  · rintro ⟨l, hl, hsort, b, hb, h1, h2⟩
    cases hres : canMergeParts rq left right with
    | false => rfl
    | true =>
      exfalso
      have hiff := (canMergeParts_eq_true_iff rq left right).mp hres
      apply hiff.2.2.2.1
      constructor
      · by_cases hsw : left.max_block > right.min_block <;>
          simp only [if_pos, if_neg, hsw] at h1 h2 ⊢ <;> omega
      · rw [gapBlocked_iff]
        · exact Or.inl ⟨l, hl, b, hb, h1, h2⟩
        · intro l2 hl2
          rw [hl] at hl2
          injection hl2 with hl2
          subst hl2
          exact hsort
  · intro hadj ci ci2 nvp nvp2
    rw [Bool.eq_iff_iff, canMergeParts_eq_true_iff, canMergeParts_eq_true_iff]
    have hmv : ∀ (ci3 : List (String × List Int)) (nvp3 : List PartName) (p : PartName),
        getCurrentMutationVersion { rq with current_inserts := ci3, next_virtual_parts := nvp3 } p
          = getCurrentMutationVersion rq p := fun _ _ _ => rfl
    by_cases hsw : left.max_block > right.min_block
    · have hlt : ¬(right.min_block + 1 < left.max_block) := by
        simp only [if_pos hsw] at hadj
        omega
      simp [hsw, hlt, hmv]
    · have hlt : ¬(left.max_block + 1 < right.min_block) := by
        simp only [if_neg hsw] at hadj
        omega
      simp [hsw, hlt, hmv]

/-- Witness for C3 at a concrete state: an ephemeral block number 5
between parts covering blocks 1-2 and 10-11 forbids the merge. -/
theorem canMergeParts_gap_checks_witness :
    canMergeParts { ReplicatedMergeTreeQueue.empty with
        virtual_parts := [⟨"all", 1, 2, 0, 0⟩, ⟨"all", 10, 11, 0, 0⟩],
        current_inserts := [("all", [5])] } ⟨"all", 1, 2, 0, 0⟩ ⟨"all", 10, 11, 0, 0⟩ = false :=
  (canMergeParts_gap_checks _ _ _).1 ⟨[5], rfl, by simp, 5, by simp, by decide, by decide⟩

/-! ### C2: canMergeParts is not symmetric; the ordered direction implies
the reversed one -/

/-- C2 counterexample: with parts `a = all_1_2_0` and `b = all_10_11_0`
both registered in `virtual_parts` and an ephemeral insert with block
number 2 pending for the partition, `canMergeParts(a, b)` is true but
`canMergeParts(b, a)` is false: the swapped call checks the wider gap
`(a.min, b.max) = (1, 11)`, which contains block 2, instead of
`(a.max, b.min) = (2, 10)`, which does not. -/
theorem canMergeParts_symmetry_counterexample :
    canMergeParts { ReplicatedMergeTreeQueue.empty with
        virtual_parts := [⟨"all", 1, 2, 0, 0⟩, ⟨"all", 10, 11, 0, 0⟩],
        current_inserts := [("all", [2])] } ⟨"all", 1, 2, 0, 0⟩ ⟨"all", 10, 11, 0, 0⟩ = true
    ∧ canMergeParts { ReplicatedMergeTreeQueue.empty with
        virtual_parts := [⟨"all", 1, 2, 0, 0⟩, ⟨"all", 10, 11, 0, 0⟩],
        current_inserts := [("all", [2])] } ⟨"all", 10, 11, 0, 0⟩ ⟨"all", 1, 2, 0, 0⟩ = false :=
  ⟨rfl, rfl⟩

/-- C2 (amended): for valid parts `a`, `b` of which `a` comes first
(`a.max < b.min`), `canMergeParts(b, a) = true` implies
`canMergeParts(a, b) = true`: the reversed call checks the wider gap
`(a.min, b.max)` instead of `(a.max, b.min)` and is therefore at least
as strict; the two calls agree except when an ephemeral block number or
a next-virtual part falls in the wider gap but not in the narrower
one. -/
theorem canMergeParts_reversed_implies_ordered (rq : ReplicatedMergeTreeQueue) (a b : PartName)
    (hva : a.min_block ≤ a.max_block) (hvb : b.min_block ≤ b.max_block)
    (hord : a.max_block < b.min_block)
    (hsort : ∀ l, List.lookup a.partition_id rq.current_inserts = some l → l.Pairwise (· < ·)) :
    canMergeParts rq b a = true → canMergeParts rq a b = true := by
  intro h
  obtain ⟨hne, hpid, hall, hgap, hmut⟩ := (canMergeParts_eq_true_iff rq b a).mp h
  rw [canMergeParts_eq_true_iff]
  have hswab : ¬(a.max_block > b.min_block) := by omega
  have hswba : b.max_block > a.min_block := by omega
  refine ⟨fun hc => hne hc.symm, hpid.symm, ?_, ?_, hmut.symm⟩
  · simp only [List.all_cons, List.all_nil, Bool.and_true] at hall ⊢
    rw [Bool.and_comm]
    exact hall
  · simp only [if_pos hswba] at hgap
    simp only [if_neg hswab]
    rintro ⟨hlt, hblk⟩
    apply hgap
    refine ⟨by omega, ?_⟩
    rw [hpid]
    rw [gapBlocked_iff rq a.partition_id a.max_block b.min_block hsort] at hblk
    rw [gapBlocked_iff rq a.partition_id a.min_block b.max_block hsort]
    rcases hblk with ⟨l, hl, bb, hbm, h1, h2⟩ | ⟨q, hq, hc⟩
    · exact Or.inl ⟨l, hl, bb, hbm, by omega, by omega⟩
    · exact Or.inr ⟨q, hq, contains_gap_mono _ _ _ _ _ q (by omega) (by omega) hc⟩

/-- Witness for the amended C2 at a concrete pair: the reversed call
admits the merge, hence so does the ordered call. -/
theorem canMergeParts_reversed_implies_ordered_witness :
    canMergeParts { ReplicatedMergeTreeQueue.empty with
        virtual_parts := [⟨"all", 1, 2, 0, 0⟩, ⟨"all", 10, 11, 0, 0⟩] }
      ⟨"all", 1, 2, 0, 0⟩ ⟨"all", 10, 11, 0, 0⟩ = true :=
  canMergeParts_reversed_implies_ordered _ ⟨"all", 1, 2, 0, 0⟩ ⟨"all", 10, 11, 0, 0⟩
    (by decide) (by decide) (by decide) (by simp [ReplicatedMergeTreeQueue.empty, List.lookup]) rfl

/-! ### C4: getCurrentMutationVersion -/

theorem mapUpperBoundPrev_spec {α : Type} (m : List (Int × α)) (k : Int)
    (hs : (m.map Prod.fst).Pairwise (· < ·)) :
    (mapUpperBoundPrev m k = none ∧ ∀ x ∈ m.map Prod.fst, k < x)
    ∨ ∃ p, mapUpperBoundPrev m k = some p ∧ p.1 ∈ m.map Prod.fst ∧ p.1 ≤ k
        ∧ ∀ x ∈ m.map Prod.fst, x ≤ k → x ≤ p.1 := by
  induction m with
  | nil => exact Or.inl ⟨rfl, by simp⟩
  | cons q t ih =>
    have hst : (t.map Prod.fst).Pairwise (· < ·) := List.Pairwise.of_cons hs
    have hhead : ∀ x ∈ t.map Prod.fst, q.1 < x := by
      intro x hx
      exact List.rel_of_pairwise_cons hs hx
    rw [mapUpperBoundPrev, List.takeWhile_cons]
    by_cases hq : q.1 ≤ k
    · rw [if_pos (by simpa using hq)]
      rcases ih hst with ⟨hnone, hall⟩ | ⟨p, hsome, hmem, hle, hmax⟩
      · rw [mapUpperBoundPrev] at hnone
        rw [List.getLast?_eq_none_iff.mp hnone]
        refine Or.inr ⟨q, rfl, by simp, hq, ?_⟩
        intro x hx hxk
        rw [List.map_cons] at hx
        rcases List.mem_cons.mp hx with rfl | hx2
        · exact le_refl _
        · exact absurd hxk (by have := hall x hx2; omega)
      · rw [mapUpperBoundPrev] at hsome
        have hne : t.takeWhile (fun p => decide (p.1 ≤ k)) ≠ [] := by
          intro hc
          rw [hc] at hsome
          cases hsome
        obtain ⟨y, ys, hys⟩ := List.exists_cons_of_ne_nil hne
        rw [hys]
        rw [hys] at hsome
        rw [List.getLast?_cons_cons]
        refine Or.inr ⟨p, hsome, List.mem_cons_of_mem _ hmem, hle, ?_⟩
        intro x hx hxk
        rw [List.map_cons] at hx
        rcases List.mem_cons.mp hx with rfl | hx2
        · exact le_of_lt (hhead p.1 hmem)
        · exact hmax x hx2 hxk
    · rw [if_neg (by simpa using hq)]
      refine Or.inl ⟨rfl, ?_⟩
      intro x hx
      rw [List.map_cons] at hx
      rcases List.mem_cons.mp hx with rfl | hx2
      · omega
      · have := hhead x hx2
        omega

/-- C4: `getCurrentMutationVersion` returns the largest mutation block
number of the partition of the part that is at most its data version
(`version` when nonzero, else `min_block`), and `-1` when the partition
has no mutations or no block number is small enough.  The hypothesis is
the `std::map` invariant that each per-partition index is sorted by
strictly increasing block number. -/
theorem getCurrentMutationVersion_spec (rq : ReplicatedMergeTreeQueue)
    (part_info : MergeTreePartInfo)
    (hs : ∀ l, List.lookup part_info.partition_id rq.mutations_by_partition = some l →
      (l.map Prod.fst).Pairwise (· < ·)) :
    (getCurrentMutationVersion rq part_info = -1
      ∧ ∀ k ∈ ((List.lookup part_info.partition_id rq.mutations_by_partition).getD []).map Prod.fst,
          (if part_info.version ≠ 0 then part_info.version else part_info.min_block) < k)
    ∨ (getCurrentMutationVersion rq part_info ∈
        ((List.lookup part_info.partition_id rq.mutations_by_partition).getD []).map Prod.fst
      ∧ getCurrentMutationVersion rq part_info ≤
          (if part_info.version ≠ 0 then part_info.version else part_info.min_block)
      ∧ ∀ k ∈ ((List.lookup part_info.partition_id rq.mutations_by_partition).getD []).map Prod.fst,
          k ≤ (if part_info.version ≠ 0 then part_info.version else part_info.min_block) →
          k ≤ getCurrentMutationVersion rq part_info) := by
  rw [getCurrentMutationVersion]
  cases hlk : List.lookup part_info.partition_id rq.mutations_by_partition with
  | none => exact Or.inl ⟨rfl, by simp⟩
  | some in_partition =>
    simp only [Option.getD_some]
    rcases mapUpperBoundPrev_spec in_partition
        (if part_info.version ≠ 0 then part_info.version else part_info.min_block)
        (hs in_partition hlk) with ⟨hnone, hall⟩ | ⟨p, hsome, hmem, hle, hmax⟩
    · rw [hnone]
      exact Or.inl ⟨rfl, hall⟩
    · rw [hsome]
      exact Or.inr ⟨hmem, hle, hmax⟩

/-- Witness for C4 at a concrete two-mutation index: for a part with
data version 6 the current mutation version facts of the theorem hold. -/
theorem getCurrentMutationVersion_spec_witness :
    (getCurrentMutationVersion { ReplicatedMergeTreeQueue.empty with
        mutations_by_partition :=
          [("all", [(5, ⟨"0000000001", [("all", 5)], [⟨1⟩]⟩), (9, ⟨"0000000002", [("all", 9)], [⟨2⟩]⟩)])] }
        ⟨"all", 6, 6, 0, 0⟩ = -1
      ∧ ∀ k ∈ ((List.lookup (MergeTreePartInfo.partition_id ⟨"all", 6, 6, 0, 0⟩)
            (ReplicatedMergeTreeQueue.mutations_by_partition { ReplicatedMergeTreeQueue.empty with
              mutations_by_partition :=
                [("all", [(5, ⟨"0000000001", [("all", 5)], [⟨1⟩]⟩), (9, ⟨"0000000002", [("all", 9)], [⟨2⟩]⟩)])] })).getD []).map Prod.fst,
          (if (MergeTreePartInfo.version ⟨"all", 6, 6, 0, 0⟩) ≠ 0 then MergeTreePartInfo.version ⟨"all", 6, 6, 0, 0⟩
           else MergeTreePartInfo.min_block ⟨"all", 6, 6, 0, 0⟩) < k)
    ∨ (getCurrentMutationVersion { ReplicatedMergeTreeQueue.empty with
        mutations_by_partition :=
          [("all", [(5, ⟨"0000000001", [("all", 5)], [⟨1⟩]⟩), (9, ⟨"0000000002", [("all", 9)], [⟨2⟩]⟩)])] }
        ⟨"all", 6, 6, 0, 0⟩ ∈
        ((List.lookup (MergeTreePartInfo.partition_id ⟨"all", 6, 6, 0, 0⟩)
            (ReplicatedMergeTreeQueue.mutations_by_partition { ReplicatedMergeTreeQueue.empty with
              mutations_by_partition :=
                [("all", [(5, ⟨"0000000001", [("all", 5)], [⟨1⟩]⟩), (9, ⟨"0000000002", [("all", 9)], [⟨2⟩]⟩)])] })).getD []).map Prod.fst
      ∧ getCurrentMutationVersion { ReplicatedMergeTreeQueue.empty with
          mutations_by_partition :=
            [("all", [(5, ⟨"0000000001", [("all", 5)], [⟨1⟩]⟩), (9, ⟨"0000000002", [("all", 9)], [⟨2⟩]⟩)])] }
          ⟨"all", 6, 6, 0, 0⟩ ≤
          (if (MergeTreePartInfo.version ⟨"all", 6, 6, 0, 0⟩) ≠ 0 then MergeTreePartInfo.version ⟨"all", 6, 6, 0, 0⟩
           else MergeTreePartInfo.min_block ⟨"all", 6, 6, 0, 0⟩)
      ∧ ∀ k ∈ ((List.lookup (MergeTreePartInfo.partition_id ⟨"all", 6, 6, 0, 0⟩)
            (ReplicatedMergeTreeQueue.mutations_by_partition { ReplicatedMergeTreeQueue.empty with
              mutations_by_partition :=
                [("all", [(5, ⟨"0000000001", [("all", 5)], [⟨1⟩]⟩), (9, ⟨"0000000002", [("all", 9)], [⟨2⟩]⟩)])] })).getD []).map Prod.fst,
          k ≤ (if (MergeTreePartInfo.version ⟨"all", 6, 6, 0, 0⟩) ≠ 0 then MergeTreePartInfo.version ⟨"all", 6, 6, 0, 0⟩
               else MergeTreePartInfo.min_block ⟨"all", 6, 6, 0, 0⟩) →
          k ≤ getCurrentMutationVersion { ReplicatedMergeTreeQueue.empty with
              mutations_by_partition :=
                [("all", [(5, ⟨"0000000001", [("all", 5)], [⟨1⟩]⟩), (9, ⟨"0000000002", [("all", 9)], [⟨2⟩]⟩)])] }
              ⟨"all", 6, 6, 0, 0⟩) :=
  getCurrentMutationVersion_spec _ ⟨"all", 6, 6, 0, 0⟩ (by
    intro l hl
    injection hl with hl
    subst hl
    simp)

/-! ### C5: getMutationCommands -/

theorem findIdx?_sorted {α : Type} (d : Int) :
    ∀ (l : List (Int × α)), (l.map Prod.fst).Pairwise (· < ·) → d ∈ l.map Prod.fst →
    ∀ acc, List.findIdx? (fun p => decide (p.1 = d)) l acc
      = some (acc + (l.takeWhile (fun p => decide (p.1 < d))).length) := by
  intro l
  induction l with
  | nil => intro _ h; cases h
  | cons x t ih =>
    intro hs hd acc
    rw [List.findIdx?_cons]
    by_cases hx : x.1 = d
    · rw [if_pos (by simpa using hx)]
      rw [List.takeWhile_cons, if_neg (by simp [hx])]
      simp
    · rw [List.map_cons] at hd
      rcases List.mem_cons.mp hd with rfl | hd2
      · exact absurd rfl hx
      · have hxd : x.1 < d := List.rel_of_pairwise_cons hs hd2
        rw [if_neg (by simpa using hx)]
        rw [ih (List.Pairwise.of_cons hs) hd2 (acc + 1)]
        rw [List.takeWhile_cons, if_pos (by simpa using hxd)]
        simp only [List.length_cons]
        congr 1
        omega

theorem slice_filter {α : Type} (dv d : Int) :
    ∀ (l : List (Int × α)), (l.map Prod.fst).Pairwise (· < ·) → d ∈ l.map Prod.fst →
    ((l.drop (l.takeWhile (fun p => decide (p.1 ≤ dv))).length).take
        ((l.takeWhile (fun p => decide (p.1 < d))).length + 1
          - (l.takeWhile (fun p => decide (p.1 ≤ dv))).length))
      = l.filter (fun p => decide (dv < p.1) && decide (p.1 ≤ d)) := by
  intro l
  induction l with
  | nil => intro _ h; cases h
  | cons x t ih =>
    intro hs hd
    have hst := List.Pairwise.of_cons hs
    have hhead : ∀ y ∈ t.map Prod.fst, x.1 < y := fun y hy => List.rel_of_pairwise_cons hs hy
    rw [List.map_cons] at hd
    by_cases hxdv : x.1 ≤ dv
    · have e1 : List.takeWhile (fun p => decide (p.1 ≤ dv)) (x :: t)
          = x :: List.takeWhile (fun p => decide (p.1 ≤ dv)) t := by
        rw [List.takeWhile_cons, if_pos (by simpa using hxdv)]
      have e3 : List.filter (fun p => decide (dv < p.1) && decide (p.1 ≤ d)) (x :: t)
          = List.filter (fun p => decide (dv < p.1) && decide (p.1 ≤ d)) t := by
        rw [List.filter_cons, if_neg (by simp; omega)]
      by_cases hxd : x.1 < d
      · have e2 : List.takeWhile (fun p => decide (p.1 < d)) (x :: t)
            = x :: List.takeWhile (fun p => decide (p.1 < d)) t := by
          rw [List.takeWhile_cons, if_pos (by simpa using hxd)]
        have hd2 : d ∈ t.map Prod.fst := by
          rcases List.mem_cons.mp hd with rfl | hd2
          · omega
          · exact hd2
        rw [e1, e2, e3]
        simp only [List.length_cons, List.drop_succ_cons]
        have harith :
            (t.takeWhile (fun p => decide (p.1 < d))).length + 1 + 1
              - ((t.takeWhile (fun p => decide (p.1 ≤ dv))).length + 1)
            = (t.takeWhile (fun p => decide (p.1 < d))).length + 1
              - (t.takeWhile (fun p => decide (p.1 ≤ dv))).length := by
          omega
        rw [harith]
        exact ih hst hd2
      · have e2 : List.takeWhile (fun p => decide (p.1 < d)) (x :: t) = [] := by
          rw [List.takeWhile_cons, if_neg (by simpa using hxd)]
        rw [e1, e2, e3]
        simp only [List.length_cons, List.length_nil]
        have harith : (0 : Nat) + 1 - ((t.takeWhile (fun p => decide (p.1 ≤ dv))).length + 1) = 0 := by
          omega
        rw [harith, List.take_zero, eq_comm, List.filter_eq_nil_iff]
        intro p hp
        have hpk : x.1 < p.1 := hhead p.1 (List.mem_map.mpr ⟨p, hp, rfl⟩)
        have hdx : d = x.1 := by
          rcases List.mem_cons.mp hd with rfl | hd2
          · rfl
          · exact absurd (hhead d hd2) hxd
        simp only [Bool.and_eq_true, decide_eq_true_eq, not_and]
        intro _
        omega
    · have e1 : List.takeWhile (fun p => decide (p.1 ≤ dv)) (x :: t) = [] := by
        rw [List.takeWhile_cons, if_neg (by simpa using hxdv)]
      have htw0 : (t.takeWhile (fun p => decide (p.1 ≤ dv))).length = 0 := by
        cases t with
        | nil => rfl
        | cons y ts =>
          have hxy : x.1 < y.1 := hhead y.1 (by simp)
          rw [List.takeWhile_cons, if_neg (by simp; omega)]
          rfl
      by_cases hxd : x.1 < d
      · have e2 : List.takeWhile (fun p => decide (p.1 < d)) (x :: t)
            = x :: List.takeWhile (fun p => decide (p.1 < d)) t := by
          rw [List.takeWhile_cons, if_pos (by simpa using hxd)]
        have e3 : List.filter (fun p => decide (dv < p.1) && decide (p.1 ≤ d)) (x :: t)
            = x :: List.filter (fun p => decide (dv < p.1) && decide (p.1 ≤ d)) t := by
          rw [List.filter_cons, if_pos (by simp; omega)]
        have hd2 : d ∈ t.map Prod.fst := by
          rcases List.mem_cons.mp hd with rfl | hd2
          · omega
          · exact hd2
        rw [e1, e2, e3]
        simp only [List.length_cons, List.length_nil, List.drop_zero, Nat.sub_zero]
        rw [List.take_succ_cons]
        congr 1
        have iht := ih hst hd2
        rw [htw0, List.drop_zero, Nat.sub_zero] at iht
        exact iht
      · have e2 : List.takeWhile (fun p => decide (p.1 < d)) (x :: t) = [] := by
          rw [List.takeWhile_cons, if_neg (by simpa using hxd)]
        have hdx : d = x.1 := by
          rcases List.mem_cons.mp hd with rfl | hd2
          · rfl
          · exact absurd (hhead d hd2) hxd
        have e3 : List.filter (fun p => decide (dv < p.1) && decide (p.1 ≤ d)) (x :: t)
            = x :: List.filter (fun p => decide (dv < p.1) && decide (p.1 ≤ d)) t := by
          rw [List.filter_cons, if_pos (by simp; omega)]
        rw [e1, e2, e3]
        simp only [List.length_nil, List.drop_zero, Nat.sub_zero, Nat.zero_add]
        rw [List.take_succ_cons, List.take_zero]
        congr 1
        rw [eq_comm, List.filter_eq_nil_iff]
        intro p hp
        have hpk : x.1 < p.1 := hhead p.1 (List.mem_map.mpr ⟨p, hp, rfl⟩)
        simp only [Bool.and_eq_true, decide_eq_true_eq, not_and]
        intro _
        omega

theorem takeWhile_le_ne_nil_iff {α : Type} (dv : Int) (t : List (Int × α))
    (hs : (t.map Prod.fst).Pairwise (· < ·)) :
    t.takeWhile (fun p => decide (p.1 ≤ dv)) ≠ [] ↔ ∃ k ∈ t.map Prod.fst, k ≤ dv := by
  cases t with
  | nil => simp
  | cons y ts =>
    rw [List.takeWhile_cons]
    by_cases hy : y.1 ≤ dv
    · rw [if_pos (by simpa using hy)]
      constructor
      · intro _
        exact ⟨y.1, by simp, hy⟩
      · intro _
        simp
    · rw [if_neg (by simpa using hy)]
      constructor
      · intro h
        exact absurd rfl h
      · rintro ⟨k, hk, hkdv⟩
        rw [List.map_cons] at hk
        rcases List.mem_cons.mp hk with rfl | hk2
        · exact absurd hkdv hy
        · have := List.rel_of_pairwise_cons hs hk2
          exact absurd hkdv (by omega)

theorem takeWhile_count_lt_iff {α : Type} (dv d : Int) :
    ∀ (l : List (Int × α)), (l.map Prod.fst).Pairwise (· < ·) → d ∈ l.map Prod.fst →
    ((l.takeWhile (fun p => decide (p.1 < d))).length + 1
        < (l.takeWhile (fun p => decide (p.1 ≤ dv))).length
      ↔ ∃ k ∈ l.map Prod.fst, d < k ∧ k ≤ dv) := by
  intro l
  induction l with
  | nil => intro _ h; cases h
  | cons x t ih =>
    intro hs hd
    have hst := List.Pairwise.of_cons hs
    have hhead : ∀ y ∈ t.map Prod.fst, x.1 < y := fun y hy => List.rel_of_pairwise_cons hs hy
    rw [List.map_cons] at hd
    by_cases hxd : x.1 < d
    · have hd2 : d ∈ t.map Prod.fst := by
        rcases List.mem_cons.mp hd with rfl | hd2
        · omega
        · exact hd2
      have e2 : List.takeWhile (fun p => decide (p.1 < d)) (x :: t)
          = x :: List.takeWhile (fun p => decide (p.1 < d)) t := by
        rw [List.takeWhile_cons, if_pos (by simpa using hxd)]
      by_cases hxdv : x.1 ≤ dv
      · have e1 : List.takeWhile (fun p => decide (p.1 ≤ dv)) (x :: t)
            = x :: List.takeWhile (fun p => decide (p.1 ≤ dv)) t := by
          rw [List.takeWhile_cons, if_pos (by simpa using hxdv)]
        rw [e1, e2]
        simp only [List.length_cons, List.map_cons]
        constructor
        · intro h
          obtain ⟨k, hk, hkd, hkdv⟩ := (ih hst hd2).mp (by omega)
          exact ⟨k, List.mem_cons_of_mem _ hk, hkd, hkdv⟩
        · rintro ⟨k, hk, hkd, hkdv⟩
          rcases List.mem_cons.mp hk with rfl | hk2
          · omega
          · have := (ih hst hd2).mpr ⟨k, hk2, hkd, hkdv⟩
            omega
      · have e1 : List.takeWhile (fun p => decide (p.1 ≤ dv)) (x :: t) = [] := by
          rw [List.takeWhile_cons, if_neg (by simpa using hxdv)]
        rw [e1, e2]
        simp only [List.length_cons, List.length_nil, List.map_cons]
        constructor
        · intro h
          exact absurd h (by omega)
        · rintro ⟨k, hk, hkd, hkdv⟩
          rcases List.mem_cons.mp hk with rfl | hk2
          · exact absurd hkd (by omega)
          · have := hhead k hk2
            exact absurd hkdv (by omega)
    · have hdx : d = x.1 := by
        rcases List.mem_cons.mp hd with rfl | hd2
        · rfl
        · exact absurd (hhead d hd2) hxd
      have e2 : List.takeWhile (fun p => decide (p.1 < d)) (x :: t) = [] := by
        rw [List.takeWhile_cons, if_neg (by simpa using hxd)]
      by_cases hxdv : x.1 ≤ dv
      · have e1 : List.takeWhile (fun p => decide (p.1 ≤ dv)) (x :: t)
            = x :: List.takeWhile (fun p => decide (p.1 ≤ dv)) t := by
          rw [List.takeWhile_cons, if_pos (by simpa using hxdv)]
        rw [e1, e2]
        simp only [List.length_cons, List.length_nil, List.map_cons]
        constructor
        · intro h
          have hne : t.takeWhile (fun p => decide (p.1 ≤ dv)) ≠ [] := by
            intro hc
            rw [hc] at h
            simp at h
          obtain ⟨k, hk, hkdv⟩ := (takeWhile_le_ne_nil_iff dv t hst).mp hne
          have := hhead k hk
          exact ⟨k, List.mem_cons_of_mem _ hk, by omega, hkdv⟩
        · rintro ⟨k, hk, hkd, hkdv⟩
          rcases List.mem_cons.mp hk with rfl | hk2
          · omega
          · have hne := (takeWhile_le_ne_nil_iff dv t hst).mpr ⟨k, hk2, hkdv⟩
            cases hTW : t.takeWhile (fun p => decide (p.1 ≤ dv)) with
            | nil => exact absurd hTW hne
            | cons a b =>
              simp only [List.length_cons]
              omega
      · have e1 : List.takeWhile (fun p => decide (p.1 ≤ dv)) (x :: t) = [] := by
          rw [List.takeWhile_cons, if_neg (by simpa using hxdv)]
        rw [e1, e2]
        simp only [List.length_nil, List.map_cons]
        constructor
        · intro h
          exact absurd h (by omega)
        · rintro ⟨k, hk, hkd, hkdv⟩
          rcases List.mem_cons.mp hk with rfl | hk2
          · exact absurd hkd (by omega)
          · have := hhead k hk2
            exact absurd hkdv (by omega)

/-- C5: the iterator walk of `getMutationCommands` by list positions:
the call is undefined (`none`, the C++ loop runs off the map) exactly
when the partition has a mutation with the desired version and some
mutation version lies strictly above the desired version yet at most
the data version of the part; it throws exactly when the partition has
no mutations or the desired version is absent; and whenever every
mutation version above the desired version also exceeds the data
version, the call is defined and returns the concatenation, in
ascending version order, of the commands of all mutations with version
strictly greater than the data version and at most the desired version
(the C++ is `const`: the queue state is read-only in every case).  The
hypothesis is the `std::map` sortedness invariant of the per-partition
index. -/
theorem getMutationCommands_spec (rq : ReplicatedMergeTreeQueue) (part_info : MergeTreePartInfo)
    (desired : Int)
    (hs : ∀ l, List.lookup part_info.partition_id rq.mutations_by_partition = some l →
      (l.map Prod.fst).Pairwise (· < ·)) :
    (getMutationCommands rq part_info desired = none ↔
      ∃ in_partition,
        List.lookup part_info.partition_id rq.mutations_by_partition = some in_partition
        ∧ desired ∈ in_partition.map Prod.fst
        ∧ ∃ k ∈ in_partition.map Prod.fst, desired < k
            ∧ k ≤ (if part_info.version ≠ 0 then part_info.version else part_info.min_block))
    ∧ ((∃ msg, getMutationCommands rq part_info desired = some (Except.error msg)) ↔
        (List.lookup part_info.partition_id rq.mutations_by_partition = none
         ∨ ∃ in_partition,
            List.lookup part_info.partition_id rq.mutations_by_partition = some in_partition
            ∧ desired ∉ in_partition.map Prod.fst))
    ∧ (∀ in_partition,
        List.lookup part_info.partition_id rq.mutations_by_partition = some in_partition →
        desired ∈ in_partition.map Prod.fst →
        (∀ k ∈ in_partition.map Prod.fst, desired < k →
          (if part_info.version ≠ 0 then part_info.version else part_info.min_block) < k) →
        getMutationCommands rq part_info desired =
          some (Except.ok (((in_partition.filter (fun p =>
              decide ((if part_info.version ≠ 0 then part_info.version else part_info.min_block) < p.1)
              && decide (p.1 ≤ desired))).map (fun p => p.2.commands)).flatten))) := by
  refine ⟨?_, ?_, ?_⟩
  · cases hlk : List.lookup part_info.partition_id rq.mutations_by_partition with
    | none =>
      simp only [getMutationCommands, hlk]
      constructor
      · intro hc
        cases hc
      · rintro ⟨l, hl, -⟩
        cases hl
    | some l =>
      cases hf : l.findIdx? (fun p => decide (p.1 = desired)) with
      | none =>
        have hnm : desired ∉ l.map Prod.fst := by
          intro hmem
          obtain ⟨p, hp, hpd⟩ := List.mem_map.mp hmem
          have := (List.findIdx?_eq_none_iff.mp hf) p hp
          rw [hpd] at this
          simp at this
        simp only [getMutationCommands, hlk, hf]
        constructor
        · intro hc
          cases hc
        · rintro ⟨l2, hl2, hmem, -⟩
          injection hl2 with hl2
          subst hl2
          exact absurd hmem hnm
      | some i =>
        have hmem : desired ∈ l.map Prod.fst := by
          by_contra hnm
          have : l.findIdx? (fun p => decide (p.1 = desired)) = none := by
            rw [List.findIdx?_eq_none_iff]
            intro p hp
            simp only [decide_eq_false_iff_not]
            intro hc
            exact hnm (List.mem_map.mpr ⟨p, hp, hc⟩)
          rw [this] at hf
          cases hf
        have hsl := hs l hlk
        have hfi := findIdx?_sorted desired l hsl hmem 0
        rw [hf] at hfi
        injection hfi with hfi
        simp only [getMutationCommands, hlk, hf]
        by_cases hcmp : i + 1 < (List.takeWhile (fun p => decide (p.1 ≤
            if part_info.version ≠ 0 then part_info.version else part_info.min_block)) l).length
        · rw [if_pos hcmp]
          refine ⟨fun _ => ⟨l, rfl, hmem, ?_⟩, fun _ => rfl⟩
          apply (takeWhile_count_lt_iff _ desired l hsl hmem).mp
          omega
        · rw [if_neg hcmp]
          constructor
          · intro hc
            cases hc
          · rintro ⟨l2, hl2, -, hex⟩
            injection hl2 with hl2
            subst hl2
            have := (takeWhile_count_lt_iff _ desired l hsl hmem).mpr hex
            omega
  · cases hlk : List.lookup part_info.partition_id rq.mutations_by_partition with
    | none =>
      constructor
      · intro _
        exact Or.inl rfl
      · intro _
        refine ⟨"There are no mutations for partition ID", ?_⟩
        simp [getMutationCommands, hlk]
    | some l =>
      cases hf : l.findIdx? (fun p => decide (p.1 = desired)) with
      | none =>
        have hnm : desired ∉ l.map Prod.fst := by
          intro hmem
          obtain ⟨p, hp, hpd⟩ := List.mem_map.mp hmem
          have := (List.findIdx?_eq_none_iff.mp hf) p hp
          rw [hpd] at this
          simp at this
        constructor
        · intro _
          exact Or.inr ⟨l, rfl, hnm⟩
        · intro _
          refine ⟨"Mutation with the desired version not found in partition", ?_⟩
          simp [getMutationCommands, hlk, hf]
      | some i =>
        have hmem : desired ∈ l.map Prod.fst := by
          by_contra hnm
          have : l.findIdx? (fun p => decide (p.1 = desired)) = none := by
            rw [List.findIdx?_eq_none_iff]
            intro p hp
            simp only [decide_eq_false_iff_not]
            intro hc
            exact hnm (List.mem_map.mpr ⟨p, hp, hc⟩)
          rw [this] at hf
          cases hf
        constructor
        · rintro ⟨msg, hmsg⟩
          simp only [getMutationCommands, hlk, hf] at hmsg
          by_cases hcmp : i + 1 < (List.takeWhile (fun p => decide (p.1 ≤
              if part_info.version ≠ 0 then part_info.version else part_info.min_block)) l).length
          · rw [if_pos hcmp] at hmsg
            cases hmsg
          · rw [if_neg hcmp] at hmsg
            simp at hmsg
        · rintro (hnone | ⟨l2, hl2, hnm2⟩)
          · cases hnone
          · injection hl2 with hl2
            subst hl2
            exact absurd hmem hnm2
  · intro l hlk hmem hnok
    have hsl := hs l hlk
    have hnlt : ¬ ((l.takeWhile (fun p => decide (p.1 < desired))).length + 1
        < (l.takeWhile (fun p => decide (p.1 ≤
            if part_info.version ≠ 0 then part_info.version else part_info.min_block))).length) := by
      intro hlt
      obtain ⟨k, hk, hkd, hkdv⟩ := (takeWhile_count_lt_iff _ desired l hsl hmem).mp hlt
      have := hnok k hk hkd
      omega
    simp only [getMutationCommands, hlk, findIdx?_sorted desired l hsl hmem, Nat.zero_add]
    rw [if_neg hnlt]
    rw [slice_filter (if part_info.version ≠ 0 then part_info.version else part_info.min_block)
      desired l hsl hmem]

/-- Witness for C5 at the failing input: the partition has mutation
versions 5 and 9, the part has data version 9 and the desired version is
5, so version 9 lies strictly between them and the call is rendered
undefined (in the C++ the begin iterator is strictly past the end
iterator and the loop walks off the map). -/
theorem getMutationCommands_spec_witness :
    (getMutationCommands { ReplicatedMergeTreeQueue.empty with
        mutations_by_partition :=
          [("all", [(5, ⟨"0000000001", [("all", 5)], [⟨1⟩]⟩),
                    (9, ⟨"0000000002", [("all", 9)], [⟨2⟩]⟩)])] }
      ⟨"all", 9, 9, 0, 0⟩ 5) = none :=
  (getMutationCommands_spec _ ⟨"all", 9, 9, 0, 0⟩ 5 (by
      intro l hl
      injection hl with hl
      subst hl
      simp)).1.mpr ⟨_, rfl, by simp, 9, by simp, by decide, by decide⟩

/-! ### C6: updateMutations keeps the mutations list strictly sorted -/

theorem purge_sublist (front : String) :
    ∀ (ms : List ReplicatedMergeTreeMutationEntry) (mbp : MutationsByPartition),
      ((purgeObsoleteMutations front ms mbp).1).Sublist ms := by
  intro ms
  induction ms with
  | nil => intro mbp; exact List.Sublist.refl _
  | cons m rest ih =>
    intro mbp
    rw [purgeObsoleteMutations]
    split
    · exact (ih _).trans (List.sublist_cons_self m rest)
    · exact List.Sublist.refl _

theorem insertionSort_pairwise_lt (l : List String) (h : l.Nodup) :
    (List.insertionSort (· ≤ ·) l).Pairwise (· < ·) := by
  have hsorted : (List.insertionSort (· ≤ ·) l).Pairwise (· ≤ ·) :=
    List.sorted_insertionSort _ l
  have hperm := List.perm_insertionSort ((· ≤ ·) : String → String → Prop) l
  exact pairwise_lt_of_le_nodup hsorted (hperm.symm.nodup h)

theorem mem_of_getLastOpt {α : Type} : ∀ {l : List α} {b : α}, l.getLast? = some b → b ∈ l := by
  intro l
  induction l with
  | nil => intro b h; cases h
  | cons x t ih =>
    intro b h
    cases t with
    | nil =>
      rw [List.getLast?_singleton] at h
      injection h with h
      subst h
      simp
    | cons y ts =>
      rw [List.getLast?_cons_cons] at h
      exact List.mem_cons_of_mem _ (ih h)

theorem pairwise_le_getLast {l : List String} :
    l.Pairwise (· < ·) → ∀ x ∈ l, ∀ b, l.getLast? = some b → x ≤ b := by
  induction l with
  | nil => intro _ x hx; cases hx
  | cons y t ih =>
    intro hp x hx b hb
    cases t with
    | nil =>
      rcases List.mem_cons.mp hx with rfl | hx2
      · rw [List.getLast?_singleton] at hb
        injection hb with hb
        subst hb
        exact le_refl _
      · cases hx2
    | cons z ts =>
      rw [List.getLast?_cons_cons] at hb
      rcases List.mem_cons.mp hx with rfl | hx2
      · exact le_of_lt (List.rel_of_pairwise_cons hp (mem_of_getLastOpt hb))
      · exact ih (List.Pairwise.of_cons hp) x hx2 b hb

theorem reverse_takeWhile_reverse_sublist {α : Type} (p : α → Bool) (l : List α) :
    ((l.reverse.takeWhile p).reverse).Sublist l := by
  have h2 := (List.takeWhile_sublist (l := l.reverse) p).reverse
  rwa [List.reverse_reverse] at h2

theorem mem_reverse_takeWhile {α : Type} (p : α → Bool) (l : List α) (x : α)
    (h : x ∈ (l.reverse.takeWhile p).reverse) : p x = true := by
  rw [List.mem_reverse] at h
  exact List.mem_takeWhile_imp h

theorem updateMutations_mutations_eq (rq : ReplicatedMergeTreeQueue) (zk : List String)
    (fetch : String → List (String × Int) × List MutationCommand) :
    (updateMutations rq zk fetch).mutations =
      (match List.insertionSort (· ≤ ·) zk with
       | [] => (([] : List ReplicatedMergeTreeMutationEntry), ([] : MutationsByPartition))
       | front :: _ => purgeObsoleteMutations front rq.mutations rq.mutations_by_partition).1
      ++ (match (match List.insertionSort (· ≤ ·) zk with
            | [] => (([] : List ReplicatedMergeTreeMutationEntry), ([] : MutationsByPartition))
            | front :: _ =>
              purgeObsoleteMutations front rq.mutations rq.mutations_by_partition).1.getLast? with
          | none => List.insertionSort (· ≤ ·) zk
          | some back => ((List.insertionSort (· ≤ ·) zk).reverse.takeWhile
              (fun e => decide (back.znode_name < e))).reverse).map
        (fun name => ⟨name, (fetch name).1, (fetch name).2⟩) := rfl

/-- C6: `updateMutations` preserves the invariant that `mutations` is in
strictly increasing `znode_name` order: it purges a prefix of obsolete
local mutations (clearing everything when the coordinator list is
empty) and appends, in sorted order, either all coordinator entries
(when the purged local list is empty) or exactly those strictly greater
than the last local `znode_name`; every surviving entry either was
local already or carries a coordinator child name. -/
theorem updateMutations_sorted (rq : ReplicatedMergeTreeQueue) (entries_in_zk : List String)
    (fetch : String → List (String × Int) × List MutationCommand)
    (h1 : (rq.mutations.map (fun m => m.znode_name)).Pairwise (· < ·))
    (h2 : entries_in_zk.Nodup) :
    (((updateMutations rq entries_in_zk fetch).mutations.map
        (fun m => m.znode_name)).Pairwise (· < ·))
    ∧ ∀ m ∈ (updateMutations rq entries_in_zk fetch).mutations,
        m ∈ rq.mutations ∨ m.znode_name ∈ entries_in_zk := by
  have hszk_lt : (List.insertionSort (· ≤ ·) entries_in_zk).Pairwise (· < ·) :=
    insertionSort_pairwise_lt _ h2
  have hszk_mem : ∀ x ∈ List.insertionSort (· ≤ ·) entries_in_zk, x ∈ entries_in_zk :=
    fun x hx => (List.perm_insertionSort _ _).subset hx
  rw [updateMutations_mutations_eq]
  cases hz : List.insertionSort (· ≤ ·) entries_in_zk with
  | nil => simp
  | cons front zrest =>
    rw [hz] at hszk_lt
    simp only []
    have hpm_sub : ((purgeObsoleteMutations front rq.mutations rq.mutations_by_partition).1).Sublist
        rq.mutations := purge_sublist front rq.mutations rq.mutations_by_partition
    have hpm_sorted :
        (((purgeObsoleteMutations front rq.mutations rq.mutations_by_partition).1).map
          (fun m => m.znode_name)).Pairwise (· < ·) :=
      List.Pairwise.sublist (hpm_sub.map _) h1
    cases hlast : (purgeObsoleteMutations front rq.mutations rq.mutations_by_partition).1.getLast? with
    | none =>
      have hpm_nil : (purgeObsoleteMutations front rq.mutations rq.mutations_by_partition).1 = [] :=
        List.getLast?_eq_none_iff.mp hlast
      rw [hpm_nil]
      simp only [List.nil_append]
      constructor
      · rw [List.map_map]
        have : ((fun m : ReplicatedMergeTreeMutationEntry => m.znode_name) ∘
            (fun name => (⟨name, (fetch name).1, (fetch name).2⟩ :
              ReplicatedMergeTreeMutationEntry))) = fun name => name := rfl
        rw [this, List.map_id']
        exact hszk_lt
      · intro m hm
        obtain ⟨name, hname, rfl⟩ := List.mem_map.mp hm
        right
        exact hszk_mem name (hz ▸ hname)
    | some back =>
      constructor
      · rw [List.map_append, List.map_map]
        have hcomp : ((fun m : ReplicatedMergeTreeMutationEntry => m.znode_name) ∘
            (fun name => (⟨name, (fetch name).1, (fetch name).2⟩ :
              ReplicatedMergeTreeMutationEntry))) = fun name => name := rfl
        rw [hcomp, List.map_id']
        rw [List.pairwise_append]
        refine ⟨hpm_sorted, ?_, ?_⟩
        · exact List.Pairwise.sublist
            (reverse_takeWhile_reverse_sublist _ _) hszk_lt
        · intro a ha e he
          obtain ⟨m, hm, rfl⟩ := List.mem_map.mp ha
          have hle : m.znode_name ≤ back.znode_name := by
            refine pairwise_le_getLast hpm_sorted m.znode_name
              (List.mem_map.mpr ⟨m, hm, rfl⟩) back.znode_name ?_
            rw [List.getLast?_map, hlast]
            rfl
          have hgt : back.znode_name < e := by
            have := mem_reverse_takeWhile _ _ _ he
            simpa using this
          exact lt_of_le_of_lt hle hgt
      · intro m hm
        rcases List.mem_append.mp hm with hm1 | hm2
        · exact Or.inl (hpm_sub.subset hm1)
        · obtain ⟨name, hname, rfl⟩ := List.mem_map.mp hm2
          right
          have : name ∈ List.insertionSort (· ≤ ·) entries_in_zk := by
            rw [hz]
            exact (reverse_takeWhile_reverse_sublist _ _).subset hname
          exact hszk_mem name this

/-- Witness for C6: refreshing an empty local mutation list from two
coordinator entries yields a strictly sorted list. -/
theorem updateMutations_sorted_witness :
    (((updateMutations ReplicatedMergeTreeQueue.empty ["mutation-2", "mutation-1"]
        (fun _ => ([], []))).mutations.map (fun m => m.znode_name)).Pairwise (· < ·)) :=
  (updateMutations_sorted ReplicatedMergeTreeQueue.empty ["mutation-2", "mutation-1"]
    (fun _ => ([], [])) (by simp [ReplicatedMergeTreeQueue.empty]) (by decide)).1

/-! ### C1: the future_parts invariant under the executing-entry
lifecycle and the queue-removal operations.  The exact-set form is
preserved by the four lifecycle operations (the `wf_` lemmas below) but
broken by the removal operations, which erase executing entries from
the queue while `future_parts` keeps their names; the containment
direction survives all operations. -/

theorem flatMap_set {α β : Type} (f : α → List β) :
    ∀ (q : List α) (i : Nat) (e e2 : α), q[i]? = some e →
      ∃ A B, q.flatMap f = A ++ (f e ++ B) ∧ (q.set i e2).flatMap f = A ++ (f e2 ++ B) := by
  intro q
  induction q with
  | nil => intro i e e2 h; simp at h
  | cons x t ih =>
    intro i e e2 h
    cases i with
    | zero =>
      rw [List.getElem?_cons_zero] at h
      injection h with h
      subst h
      exact ⟨[], t.flatMap f, by simp, by simp⟩
    | succ n =>
      rw [List.getElem?_cons_succ] at h
      obtain ⟨A, B, hA, hB⟩ := ih n e e2 h
      refine ⟨f x ++ A, B, ?_, ?_⟩
      · rw [List.flatMap_cons, hA, List.append_assoc]
      · rw [List.set_cons_succ, List.flatMap_cons, hB, List.append_assoc]

theorem execNames_not_executing {e : LogEntry} (h : e.currently_executing = false) :
    execNames e = [] := by
  simp [execNames, h]

theorem execNames_executing_none {e : LogEntry} (h : e.currently_executing = true)
    (ha : e.actual_new_part_name = none) : execNames e = [e.new_part_name] := by
  simp [execNames, h, ha]

theorem wf_insertUnlocked (rq : ReplicatedMergeTreeQueue) (e : LogEntry)
    (h : queueStateWF rq) (he : e.currently_executing = false)
    (ha : e.actual_new_part_name = none) : queueStateWF (insertUnlocked rq e) := by
  obtain ⟨hperm, hnd, hact⟩ := h
  obtain ⟨hfp, -, hq⟩ := insertUnlocked_queue_shape rq e
  have hcl : claimedNames (insertUnlocked rq e) = claimedNames rq := by
    rcases hq with hq | hq <;>
      rw [claimedNames, hq] <;>
      simp [List.flatMap_append, List.flatMap_cons, execNames_not_executing he, claimedNames]
  refine ⟨?_, ?_, ?_⟩
  · rw [hcl, hfp]; exact hperm
  · rw [hcl]; exact hnd
  · intro x hx hxe
    rcases hq with hq | hq <;> rw [hq] at hx
    · rcases List.mem_append.mp hx with hx2 | hx2
      · exact hact x hx2 hxe
      · rw [List.mem_singleton.mp hx2]; exact ha
    · rcases List.mem_cons.mp hx with rfl | hx2
      · exact ha
      · exact hact x hx2 hxe

theorem wf_ctor (rq rq2 : ReplicatedMergeTreeQueue) (i now : Nat)
    (h : queueStateWF rq) (hs : currentlyExecutingCtor rq i now = some rq2) :
    queueStateWF rq2 := by
  obtain ⟨hperm, hnd, hact⟩ := h
  rw [currentlyExecutingCtor] at hs
  split at hs
  · cases hs
  · next entry hq =>
    dsimp only at hs
    split at hs
    · cases hs
    · next hc =>
      injection hs with hs
      have hnotin : entry.new_part_name ∉ rq.future_parts :=
        fun hin => hc (contains_eq_true_iff.mpr hin)
      have hee : entry.currently_executing = false := by
        by_contra hce
        rw [Bool.not_eq_false] at hce
        apply hnotin
        rw [hperm.mem_iff]
        exact List.mem_flatMap.mpr ⟨entry, mem_of_getElemOpt hq, by simp [execNames, hce]⟩
      have hae := hact entry (mem_of_getElemOpt hq) hee
      obtain ⟨A, B, hAB1, hAB2⟩ := flatMap_set execNames rq.queue i entry
        { entry with currently_executing := true, num_tries := entry.num_tries + 1, last_attempt_time := now } hq
      rw [execNames_not_executing hee, List.nil_append] at hAB1
      have htag : execNames { entry with currently_executing := true, num_tries := entry.num_tries + 1, last_attempt_time := now } = [entry.new_part_name] := by
        simp [execNames, hae]
      rw [htag, List.singleton_append] at hAB2
      have hperm2 : rq.future_parts.Perm (A ++ B) := by
        have hx := hperm
        rw [claimedNames, hAB1] at hx
        exact hx
      have hnd2 : (A ++ B).Nodup := by
        have hx := hnd
        rw [claimedNames, hAB1] at hx
        exact hx
      have hnm : entry.new_part_name ∉ A ++ B := fun hin => hnotin (hperm2.mem_iff.mpr hin)
      have hq2q : rq2.queue = rq.queue.set i { entry with currently_executing := true, num_tries := entry.num_tries + 1, last_attempt_time := now } := by
        rw [← hs]
      have hq2f : rq2.future_parts = entry.new_part_name :: rq.future_parts := by
        rw [← hs]
      have hq2cl : claimedNames rq2 = A ++ entry.new_part_name :: B := by
        rw [claimedNames, hq2q, hAB2]
      refine ⟨?_, ?_, ?_⟩
      · rw [hq2f, hq2cl]
        exact (hperm2.cons _).trans List.perm_middle.symm
      · rw [hq2cl, List.nodup_middle]
        exact List.nodup_cons.mpr ⟨hnm, hnd2⟩
      · intro x hx hxe
        rw [hq2q] at hx
        rcases List.mem_or_eq_of_mem_set hx with hx2 | rfl
        · exact hact x hx2 hxe
        · simp at hxe

theorem wf_setActual (rq rq2 : ReplicatedMergeTreeQueue) (i : Nat) (actual : PartName)
    (h : queueStateWF rq) (hs : setActualPartName rq i actual = some rq2) :
    queueStateWF rq2 := by
  obtain ⟨hperm, hnd, hact⟩ := h
  rw [setActualPartName] at hs
  split at hs
  · cases hs
  · next entry hq =>
    dsimp only at hs
    split at hs
    · cases hs
    · next hce =>
      have hce2 : entry.currently_executing = true := by
        revert hce
        cases entry.currently_executing <;> simp
      split at hs
      · cases hs
      · next han =>
        have han2 : entry.actual_new_part_name = none := by
          revert han
          cases entry.actual_new_part_name <;> simp
        have hold : execNames entry = [entry.new_part_name] :=
          execNames_executing_none hce2 han2
        obtain ⟨A, B, hAB1, hAB2⟩ := flatMap_set execNames rq.queue i entry
          { entry with actual_new_part_name := some actual } hq
        rw [hold, List.singleton_append] at hAB1
        have hperm2 : rq.future_parts.Perm (A ++ entry.new_part_name :: B) := by
          have hx := hperm
          rw [claimedNames, hAB1] at hx
          exact hx
        have hnd1 : (A ++ entry.new_part_name :: B).Nodup := by
          have hx := hnd
          rw [claimedNames, hAB1] at hx
          exact hx
        split at hs
        · next heq =>
          injection hs with hs
          have hnew : execNames { entry with actual_new_part_name := some actual }
              = [entry.new_part_name] := by
            simp [execNames, hce2, heq]
          rw [hnew, List.singleton_append] at hAB2
          have hq2q : rq2.queue = rq.queue.set i { entry with actual_new_part_name := some actual } := by
            rw [← hs]
          have hq2f : rq2.future_parts = rq.future_parts := by
            rw [← hs]
          have hq2cl : claimedNames rq2 = A ++ entry.new_part_name :: B := by
            rw [claimedNames, hq2q, hAB2]
          refine ⟨?_, ?_, ?_⟩
          · rw [hq2f, hq2cl]
            exact hperm2
          · rw [hq2cl]
            exact hnd1
          · intro x hx hxe
            rw [hq2q] at hx
            rcases List.mem_or_eq_of_mem_set hx with hx2 | rfl
            · exact hact x hx2 hxe
            · simp [hce2] at hxe
        · next heq =>
          split at hs
          · cases hs
          · next hc =>
            injection hs with hs
            have hna : actual ∉ rq.future_parts :=
              fun hin => hc (contains_eq_true_iff.mpr hin)
            have hnew : execNames { entry with actual_new_part_name := some actual }
                = [entry.new_part_name, actual] := by
              simp [execNames, hce2, heq]
            rw [hnew] at hAB2
            simp only [List.cons_append, List.nil_append] at hAB2
            have hq2q : rq2.queue = rq.queue.set i { entry with actual_new_part_name := some actual } := by
              rw [← hs]
            have hq2f : rq2.future_parts = actual :: rq.future_parts := by
              rw [← hs]
            have hq2cl : claimedNames rq2 = A ++ entry.new_part_name :: actual :: B := by
              rw [claimedNames, hq2q, hAB2]
            have hmid := @List.perm_middle PartName actual (A ++ [entry.new_part_name]) B
            simp only [List.append_assoc, List.cons_append, List.nil_append] at hmid
            have hnotc : actual ∉ A ++ entry.new_part_name :: B :=
              fun hin => hna (hperm2.mem_iff.mpr hin)
            refine ⟨?_, ?_, ?_⟩
            · rw [hq2f, hq2cl]
              exact (hperm2.cons actual).trans hmid.symm
            · rw [hq2cl]
              exact hmid.symm.nodup (List.nodup_cons.mpr ⟨hnotc, hnd1⟩)
            · intro x hx hxe
              rw [hq2q] at hx
              rcases List.mem_or_eq_of_mem_set hx with hx2 | rfl
              · exact hact x hx2 hxe
              · simp [hce2] at hxe

theorem wf_dtor (rq rq2 : ReplicatedMergeTreeQueue) (i : Nat)
    (h : queueStateWF rq) (hs : currentlyExecutingDtor rq i = some rq2) :
    queueStateWF rq2 := by
  obtain ⟨hperm, hnd, hact⟩ := h
  rw [currentlyExecutingDtor] at hs
  split at hs
  · cases hs
  · next entry hq =>
    dsimp only at hs
    split at hs
    · cases hs
    · next hce =>
      have hce2 : entry.currently_executing = true := by
        revert hce
        cases entry.currently_executing <;> simp
      obtain ⟨A, B, hAB1, hAB2⟩ := flatMap_set execNames rq.queue i entry
        { entry with currently_executing := false, actual_new_part_name := none } hq
      have huntag : execNames { entry with currently_executing := false, actual_new_part_name := none } = [] := by
        simp [execNames]
      rw [huntag, List.nil_append] at hAB2
      have hq2q : rq2.queue = rq.queue.set i { entry with currently_executing := false, actual_new_part_name := none } := by
        cases hactual : entry.actual_new_part_name with
        | none =>
          rw [hactual] at hs
          dsimp only at hs
          injection hs with hs
          rw [← hs]
        | some a =>
          rw [hactual] at hs
          dsimp only at hs
          split at hs
          · injection hs with hs
            rw [← hs]
          · injection hs with hs
            rw [← hs]
      have hq2cl : claimedNames rq2 = A ++ B := by
        rw [claimedNames, hq2q, hAB2]
      have hthird : ∀ e ∈ rq2.queue, e.currently_executing = false →
          e.actual_new_part_name = none := by
        intro x hx hxe
        rw [hq2q] at hx
        rcases List.mem_or_eq_of_mem_set hx with hx2 | rfl
        · exact hact x hx2 hxe
        · rfl
      cases hactual : entry.actual_new_part_name with
      | none =>
        rw [hactual] at hs
        dsimp only at hs
        injection hs with hs
        have hold : execNames entry = [entry.new_part_name] :=
          execNames_executing_none hce2 hactual
        rw [hold, List.singleton_append] at hAB1
        have hperm2 : rq.future_parts.Perm (A ++ entry.new_part_name :: B) := by
          have hx := hperm
          rw [claimedNames, hAB1] at hx
          exact hx
        have hnd1 : (A ++ entry.new_part_name :: B).Nodup := by
          have hx := hnd
          rw [claimedNames, hAB1] at hx
          exact hx
        have hnA : entry.new_part_name ∉ A := by
          have hx := hnd1
          rw [List.nodup_middle] at hx
          intro hmem
          exact (List.nodup_cons.mp hx).1 (List.mem_append.mpr (Or.inl hmem))
        have hq2f : rq2.future_parts = rq.future_parts.erase entry.new_part_name := by
          rw [← hs]
        have herase : (A ++ entry.new_part_name :: B).erase entry.new_part_name = A ++ B := by
          rw [List.erase_append_right _ hnA, List.erase_cons_head]
        refine ⟨?_, ?_, hthird⟩
        · rw [hq2f, hq2cl]
          have hx := List.Perm.erase entry.new_part_name hperm2
          rw [herase] at hx
          exact hx
        · rw [hq2cl]
          exact List.Nodup.sublist ((List.sublist_cons_self _ _).append_left A) hnd1
      | some a =>
        rw [hactual] at hs
        dsimp only at hs
        split at hs
        · next hne =>
          injection hs with hs
          have hold : execNames entry = [entry.new_part_name, a] := by
            simp [execNames, hce2, hactual, hne]
          rw [hold] at hAB1
          simp only [List.cons_append, List.nil_append] at hAB1
          have hperm2 : rq.future_parts.Perm (A ++ entry.new_part_name :: a :: B) := by
            have hx := hperm
            rw [claimedNames, hAB1] at hx
            exact hx
          have hnd1 : (A ++ entry.new_part_name :: a :: B).Nodup := by
            have hx := hnd
            rw [claimedNames, hAB1] at hx
            exact hx
          obtain ⟨hndA, hndC, hdisj⟩ := List.nodup_append.mp hnd1
          have hnA : entry.new_part_name ∉ A := fun hmem => hdisj hmem (by simp)
          have haA : a ∉ A := fun hmem => hdisj hmem (by simp)
          have hq2f : rq2.future_parts =
              (rq.future_parts.erase entry.new_part_name).erase a := by
            rw [← hs]
          have herase1 : (A ++ entry.new_part_name :: a :: B).erase entry.new_part_name
              = A ++ a :: B := by
            rw [List.erase_append_right _ hnA, List.erase_cons_head]
          have herase2 : (A ++ a :: B).erase a = A ++ B := by
            rw [List.erase_append_right _ haA, List.erase_cons_head]
          refine ⟨?_, ?_, hthird⟩
          · rw [hq2f, hq2cl]
            have hx := List.Perm.erase entry.new_part_name hperm2
            rw [herase1] at hx
            have hy := List.Perm.erase a hx
            rw [herase2] at hy
            exact hy
          · rw [hq2cl]
            refine List.Nodup.sublist ?_ hnd1
            exact ((List.sublist_cons_self _ _).trans (List.sublist_cons_self _ _)).append_left A
        · next hne =>
          injection hs with hs
          have haeq : a = entry.new_part_name := by
            revert hne
            by_cases hx : a = entry.new_part_name <;> simp [hx]
          have hold : execNames entry = [entry.new_part_name] := by
            simp [execNames, hce2, hactual, haeq]
          rw [hold, List.singleton_append] at hAB1
          have hperm2 : rq.future_parts.Perm (A ++ entry.new_part_name :: B) := by
            have hx := hperm
            rw [claimedNames, hAB1] at hx
            exact hx
          have hnd1 : (A ++ entry.new_part_name :: B).Nodup := by
            have hx := hnd
            rw [claimedNames, hAB1] at hx
            exact hx
          have hnA : entry.new_part_name ∉ A := by
            have hx := hnd1
            rw [List.nodup_middle] at hx
            intro hmem
            exact (List.nodup_cons.mp hx).1 (List.mem_append.mpr (Or.inl hmem))
          have hq2f : rq2.future_parts = rq.future_parts.erase entry.new_part_name := by
            rw [← hs]
          have herase : (A ++ entry.new_part_name :: B).erase entry.new_part_name = A ++ B := by
            rw [List.erase_append_right _ hnA, List.erase_cons_head]
          refine ⟨?_, ?_, hthird⟩
          · rw [hq2f, hq2cl]
            have hx := List.Perm.erase entry.new_part_name hperm2
            rw [herase] at hx
            exact hx
          · rw [hq2cl]
            exact List.Nodup.sublist ((List.sublist_cons_self _ _).append_left A) hnd1

theorem wf_exact {rq : ReplicatedMergeTreeQueue} (h : queueStateWF rq) : futurePartsExact rq := by
  obtain ⟨hperm, -, -⟩ := h
  intro name
  rw [hperm.mem_iff, claimedNames, List.mem_flatMap]
  constructor
  · rintro ⟨e, he, hn⟩
    refine ⟨e, he, ?_⟩
    rw [execNames] at hn
    by_cases hce : e.currently_executing
    · rw [if_pos hce] at hn
      refine ⟨hce, ?_⟩
      cases ha : e.actual_new_part_name with
      | none =>
        rw [ha] at hn
        rcases List.mem_cons.mp hn with rfl | hn2
        · exact Or.inl rfl
        · cases hn2
      | some a =>
        rw [ha] at hn
        dsimp only at hn
        by_cases hne : a ≠ e.new_part_name
        · rw [if_pos hne] at hn
          rcases List.mem_cons.mp hn with rfl | hn2
          · exact Or.inl rfl
          · have hna : name = a := List.mem_singleton.mp hn2
            subst hna
            exact Or.inr ⟨rfl, hne⟩
        · rw [if_neg hne] at hn
          rcases List.mem_cons.mp hn with rfl | hn2
          · exact Or.inl rfl
          · cases hn2
    · rw [if_neg hce] at hn
      cases hn
  · rintro ⟨e, he, hce, hdisj⟩
    refine ⟨e, he, ?_⟩
    rw [execNames, if_pos hce]
    rcases hdisj with rfl | ⟨ha, hne⟩
    · exact List.mem_cons_self ..
    · rw [ha]
      dsimp only
      rw [if_pos hne]
      exact List.mem_cons_of_mem _ (List.mem_singleton.mpr rfl)

theorem flatMap_sublist {α β : Type} (f : α → List β) :
    ∀ {l1 l2 : List α}, List.Sublist l1 l2 → List.Sublist (l1.flatMap f) (l2.flatMap f) := by
  intro l1 l2 h
  induction h with
  | slnil => exact List.Sublist.refl _
  | cons a h2 ih =>
    rw [List.flatMap_cons]
    exact ih.trans (List.sublist_append_right _ _)
  | cons₂ a h2 ih =>
    rw [List.flatMap_cons, List.flatMap_cons]
    exact ih.append_left _

theorem reverse_erase_reverse_sublist {α : Type} [DecidableEq α] (l : List α) (a : α) :
    List.Sublist ((l.reverse.erase a).reverse) l := by
  have h1 : List.Sublist (l.reverse.erase a) l.reverse := List.erase_sublist ..
  have h2 := h1.reverse
  rw [List.reverse_reverse] at h2
  exact h2

theorem updateTimesOnRemoval_queue_future (st : ReplicatedMergeTreeQueue) (e : LogEntry) :
    (updateTimesOnRemoval st e).queue = st.queue
    ∧ (updateTimesOnRemoval st e).future_parts = st.future_parts := by
  rw [updateTimesOnRemoval]
  split
  · exact ⟨rfl, rfl⟩
  · exact ⟨rfl, rfl⟩

theorem foldl_updateTimesOnRemoval_queue_future :
    ∀ (l : List LogEntry) (st : ReplicatedMergeTreeQueue),
      (l.foldl updateTimesOnRemoval st).queue = st.queue
      ∧ (l.foldl updateTimesOnRemoval st).future_parts = st.future_parts := by
  intro l
  induction l with
  | nil => intro st; exact ⟨rfl, rfl⟩
  | cons e t ih =>
    intro st
    rw [List.foldl_cons]
    obtain ⟨h1, h2⟩ := ih (updateTimesOnRemoval st e)
    obtain ⟨h3, h4⟩ := updateTimesOnRemoval_queue_future st e
    exact ⟨h1.trans h3, h2.trans h4⟩

theorem remove_queue_future (rq : ReplicatedMergeTreeQueue) (entry : LogEntry) :
    (ReplicatedMergeTreeQueue.remove rq entry).queue = (rq.queue.reverse.erase entry).reverse
    ∧ (ReplicatedMergeTreeQueue.remove rq entry).future_parts = rq.future_parts :=
  ⟨(updateTimesOnRemoval_queue_future _ _).1, (updateTimesOnRemoval_queue_future _ _).2⟩

theorem removeByPartName_queue_future (rq : ReplicatedMergeTreeQueue) (part_name : PartName) :
    List.Sublist (removeByPartName rq part_name).1.queue rq.queue
    ∧ (removeByPartName rq part_name).1.future_parts = rq.future_parts := by
  rw [removeByPartName]
  split
  · exact ⟨List.Sublist.refl _, rfl⟩
  · next found hfound =>
    dsimp only
    constructor
    · rw [(updateTimesOnRemoval_queue_future _ _).1]
      exact List.eraseP_sublist ..
    · exact (updateTimesOnRemoval_queue_future _ _).2

theorem removePartProducingOpsInRange_queue_future (rq : ReplicatedMergeTreeQueue)
    (part_name : PartName) :
    List.Sublist (removePartProducingOpsInRange rq part_name).queue rq.queue
    ∧ (removePartProducingOpsInRange rq part_name).future_parts = rq.future_parts := by
  rw [removePartProducingOpsInRange]
  dsimp only
  constructor
  · rw [(foldl_updateTimesOnRemoval_queue_future _ _).1]
    exact List.filter_sublist ..
  · exact (foldl_updateTimesOnRemoval_queue_future _ _).2

theorem sound_queue_sublist (rq rq2 : ReplicatedMergeTreeQueue)
    (hq : List.Sublist rq2.queue rq.queue) (hf : rq2.future_parts = rq.future_parts)
    (h : queueStateSound rq) : queueStateSound rq2 := by
  obtain ⟨hsub, hndf, hndc, hact⟩ := h
  have hcl : List.Sublist (claimedNames rq2) (claimedNames rq) := flatMap_sublist execNames hq
  refine ⟨?_, ?_, ?_, ?_⟩
  · intro n hn
    rw [hf]
    exact hsub n (hcl.subset hn)
  · rw [hf]
    exact hndf
  · exact hndc.sublist hcl
  · intro e he
    exact hact e (hq.subset he)

theorem sound_insertUnlocked (rq : ReplicatedMergeTreeQueue) (e : LogEntry)
    (h : queueStateSound rq) (he : e.currently_executing = false)
    (ha : e.actual_new_part_name = none) : queueStateSound (insertUnlocked rq e) := by
  obtain ⟨hsub, hndf, hndc, hact⟩ := h
  obtain ⟨hfp, -, hq⟩ := insertUnlocked_queue_shape rq e
  have hcl : claimedNames (insertUnlocked rq e) = claimedNames rq := by
    rcases hq with hq | hq <;>
      rw [claimedNames, hq] <;>
      simp [List.flatMap_append, List.flatMap_cons, execNames_not_executing he, claimedNames]
  refine ⟨?_, ?_, ?_, ?_⟩
  · intro n hn
    rw [hfp]
    exact hsub n (hcl ▸ hn)
  · rw [hfp]
    exact hndf
  · rw [hcl]
    exact hndc
  · intro x hx hxe
    rcases hq with hq | hq <;> rw [hq] at hx
    · rcases List.mem_append.mp hx with hx2 | hx2
      · exact hact x hx2 hxe
      · rw [List.mem_singleton.mp hx2]
        exact ha
    · rcases List.mem_cons.mp hx with rfl | hx2
      · exact ha
      · exact hact x hx2 hxe

theorem sound_ctor (rq rq2 : ReplicatedMergeTreeQueue) (i now : Nat)
    (h : queueStateSound rq) (hs : currentlyExecutingCtor rq i now = some rq2) :
    queueStateSound rq2 := by
  obtain ⟨hsub, hndf, hndc, hact⟩ := h
  rw [currentlyExecutingCtor] at hs
  split at hs
  · cases hs
  · next entry hq =>
    dsimp only at hs
    split at hs
    · cases hs
    · next hc =>
      injection hs with hs
      have hnotin : entry.new_part_name ∉ rq.future_parts :=
        fun hin => hc (contains_eq_true_iff.mpr hin)
      have hee : entry.currently_executing = false := by
        by_contra hce
        rw [Bool.not_eq_false] at hce
        apply hnotin
        apply hsub
        exact List.mem_flatMap.mpr ⟨entry, mem_of_getElemOpt hq, by simp [execNames, hce]⟩
      have hae := hact entry (mem_of_getElemOpt hq) hee
      obtain ⟨A, B, hAB1, hAB2⟩ := flatMap_set execNames rq.queue i entry
        { entry with currently_executing := true, num_tries := entry.num_tries + 1, last_attempt_time := now } hq
      rw [execNames_not_executing hee, List.nil_append] at hAB1
      have htag : execNames { entry with currently_executing := true, num_tries := entry.num_tries + 1, last_attempt_time := now } = [entry.new_part_name] := by
        simp [execNames, hae]
      rw [htag, List.singleton_append] at hAB2
      have hsub2 : ∀ n ∈ A ++ B, n ∈ rq.future_parts := by
        intro n hn
        apply hsub
        rw [claimedNames, hAB1]
        exact hn
      have hnd2 : (A ++ B).Nodup := by
        have hx := hndc
        rw [claimedNames, hAB1] at hx
        exact hx
      have hnm : entry.new_part_name ∉ A ++ B := fun hin => hnotin (hsub2 _ hin)
      have hq2q : rq2.queue = rq.queue.set i { entry with currently_executing := true, num_tries := entry.num_tries + 1, last_attempt_time := now } := by
        rw [← hs]
      have hq2f : rq2.future_parts = entry.new_part_name :: rq.future_parts := by
        rw [← hs]
      have hq2cl : claimedNames rq2 = A ++ entry.new_part_name :: B := by
        rw [claimedNames, hq2q, hAB2]
      refine ⟨?_, ?_, ?_, ?_⟩
      · intro n hn
        rw [hq2cl] at hn
        rw [hq2f]
        rcases List.mem_append.mp hn with hn2 | hn2
        · exact List.mem_cons_of_mem _ (hsub2 n (List.mem_append.mpr (Or.inl hn2)))
        · rcases List.mem_cons.mp hn2 with rfl | hn3
          · exact List.mem_cons_self ..
          · exact List.mem_cons_of_mem _ (hsub2 n (List.mem_append.mpr (Or.inr hn3)))
      · rw [hq2f]
        exact List.nodup_cons.mpr ⟨hnotin, hndf⟩
      · rw [hq2cl, List.nodup_middle]
        exact List.nodup_cons.mpr ⟨hnm, hnd2⟩
      · intro x hx hxe
        rw [hq2q] at hx
        rcases List.mem_or_eq_of_mem_set hx with hx2 | rfl
        · exact hact x hx2 hxe
        · simp at hxe

theorem sound_setActual (rq rq2 : ReplicatedMergeTreeQueue) (i : Nat) (actual : PartName)
    (h : queueStateSound rq) (hs : setActualPartName rq i actual = some rq2) :
    queueStateSound rq2 := by
  obtain ⟨hsub, hndf, hndc, hact⟩ := h
  rw [setActualPartName] at hs
  split at hs
  · cases hs
  · next entry hq =>
    dsimp only at hs
    split at hs
    · cases hs
    · next hce =>
      have hce2 : entry.currently_executing = true := by
        revert hce
        cases entry.currently_executing <;> simp
      split at hs
      · cases hs
      · next han =>
        have han2 : entry.actual_new_part_name = none := by
          revert han
          cases entry.actual_new_part_name <;> simp
        have hold : execNames entry = [entry.new_part_name] :=
          execNames_executing_none hce2 han2
        obtain ⟨A, B, hAB1, hAB2⟩ := flatMap_set execNames rq.queue i entry
          { entry with actual_new_part_name := some actual } hq
        rw [hold, List.singleton_append] at hAB1
        have hsub2 : ∀ n ∈ A ++ entry.new_part_name :: B, n ∈ rq.future_parts := by
          intro n hn
          apply hsub
          rw [claimedNames, hAB1]
          exact hn
        have hnd1 : (A ++ entry.new_part_name :: B).Nodup := by
          have hx := hndc
          rw [claimedNames, hAB1] at hx
          exact hx
        split at hs
        · next heq =>
          injection hs with hs
          have hnew : execNames { entry with actual_new_part_name := some actual }
              = [entry.new_part_name] := by
            simp [execNames, hce2, heq]
          rw [hnew, List.singleton_append] at hAB2
          have hq2q : rq2.queue = rq.queue.set i { entry with actual_new_part_name := some actual } := by
            rw [← hs]
          have hq2f : rq2.future_parts = rq.future_parts := by
            rw [← hs]
          have hq2cl : claimedNames rq2 = A ++ entry.new_part_name :: B := by
            rw [claimedNames, hq2q, hAB2]
          refine ⟨?_, ?_, ?_, ?_⟩
          · intro n hn
            rw [hq2cl] at hn
            rw [hq2f]
            exact hsub2 n hn
          · rw [hq2f]
            exact hndf
          · rw [hq2cl]
            exact hnd1
          · intro x hx hxe
            rw [hq2q] at hx
            rcases List.mem_or_eq_of_mem_set hx with hx2 | rfl
            · exact hact x hx2 hxe
            · simp [hce2] at hxe
        · next heq =>
          split at hs
          · cases hs
          · next hc =>
            injection hs with hs
            have hna : actual ∉ rq.future_parts :=
              fun hin => hc (contains_eq_true_iff.mpr hin)
            have hnew : execNames { entry with actual_new_part_name := some actual }
                = [entry.new_part_name, actual] := by
              simp [execNames, hce2, heq]
            rw [hnew] at hAB2
            simp only [List.cons_append, List.nil_append] at hAB2
            have hq2q : rq2.queue = rq.queue.set i { entry with actual_new_part_name := some actual } := by
              rw [← hs]
            have hq2f : rq2.future_parts = actual :: rq.future_parts := by
              rw [← hs]
            have hq2cl : claimedNames rq2 = A ++ entry.new_part_name :: actual :: B := by
              rw [claimedNames, hq2q, hAB2]
            have hmid := @List.perm_middle PartName actual (A ++ [entry.new_part_name]) B
            simp only [List.append_assoc, List.cons_append, List.nil_append] at hmid
            have hnotc : actual ∉ A ++ entry.new_part_name :: B :=
              fun hin => hna (hsub2 _ hin)
            refine ⟨?_, ?_, ?_, ?_⟩
            · intro n hn
              rw [hq2cl] at hn
              rw [hq2f]
              have hn2 : n ∈ actual :: (A ++ entry.new_part_name :: B) := hmid.mem_iff.mp hn
              rcases List.mem_cons.mp hn2 with rfl | hn3
              · exact List.mem_cons_self ..
              · exact List.mem_cons_of_mem _ (hsub2 n hn3)
            · rw [hq2f]
              exact List.nodup_cons.mpr ⟨hna, hndf⟩
            · rw [hq2cl]
              exact hmid.symm.nodup (List.nodup_cons.mpr ⟨hnotc, hnd1⟩)
            · intro x hx hxe
              rw [hq2q] at hx
              rcases List.mem_or_eq_of_mem_set hx with hx2 | rfl
              · exact hact x hx2 hxe
              · simp [hce2] at hxe

theorem sound_dtor (rq rq2 : ReplicatedMergeTreeQueue) (i : Nat)
    (h : queueStateSound rq) (hs : currentlyExecutingDtor rq i = some rq2) :
    queueStateSound rq2 := by
  obtain ⟨hsub, hndf, hndc, hact⟩ := h
  rw [currentlyExecutingDtor] at hs
  split at hs
  · cases hs
  · next entry hq =>
    dsimp only at hs
    split at hs
    · cases hs
    · next hce =>
      have hce2 : entry.currently_executing = true := by
        revert hce
        cases entry.currently_executing <;> simp
      obtain ⟨A, B, hAB1, hAB2⟩ := flatMap_set execNames rq.queue i entry
        { entry with currently_executing := false, actual_new_part_name := none } hq
      have huntag : execNames { entry with currently_executing := false, actual_new_part_name := none } = [] := by
        simp [execNames]
      rw [huntag, List.nil_append] at hAB2
      have hq2q : rq2.queue = rq.queue.set i { entry with currently_executing := false, actual_new_part_name := none } := by
        cases hactual : entry.actual_new_part_name with
        | none =>
          rw [hactual] at hs
          dsimp only at hs
          injection hs with hs
          rw [← hs]
        | some a =>
          rw [hactual] at hs
          dsimp only at hs
          split at hs
          · injection hs with hs
            rw [← hs]
          · injection hs with hs
            rw [← hs]
      have hq2cl : claimedNames rq2 = A ++ B := by
        rw [claimedNames, hq2q, hAB2]
      have hthird : ∀ e ∈ rq2.queue, e.currently_executing = false →
          e.actual_new_part_name = none := by
        intro x hx hxe
        rw [hq2q] at hx
        rcases List.mem_or_eq_of_mem_set hx with hx2 | rfl
        · exact hact x hx2 hxe
        · rfl
      cases hactual : entry.actual_new_part_name with
      | none =>
        rw [hactual] at hs
        dsimp only at hs
        injection hs with hs
        have hold : execNames entry = [entry.new_part_name] :=
          execNames_executing_none hce2 hactual
        rw [hold, List.singleton_append] at hAB1
        have hsub2 : ∀ n ∈ A ++ entry.new_part_name :: B, n ∈ rq.future_parts := by
          intro n hn
          apply hsub
          rw [claimedNames, hAB1]
          exact hn
        have hnd1 : (A ++ entry.new_part_name :: B).Nodup := by
          have hx := hndc
          rw [claimedNames, hAB1] at hx
          exact hx
        have hq2f : rq2.future_parts = rq.future_parts.erase entry.new_part_name := by
          rw [← hs]
        have hnenew : ∀ n ∈ A ++ B, n ≠ entry.new_part_name := by
          intro n hn
          have hx := hnd1
          rw [List.nodup_middle] at hx
          obtain ⟨hni, -⟩ := List.nodup_cons.mp hx
          intro hcon
          subst hcon
          exact hni hn
        refine ⟨?_, ?_, ?_, hthird⟩
        · intro n hn
          rw [hq2cl] at hn
          rw [hq2f, List.mem_erase_of_ne (hnenew n hn)]
          rcases List.mem_append.mp hn with hn2 | hn2
          · exact hsub2 n (List.mem_append.mpr (Or.inl hn2))
          · exact hsub2 n (List.mem_append.mpr (Or.inr (List.mem_cons_of_mem _ hn2)))
        · rw [hq2f]
          exact hndf.erase _
        · rw [hq2cl]
          exact List.Nodup.sublist ((List.sublist_cons_self _ _).append_left A) hnd1
      | some a =>
        rw [hactual] at hs
        dsimp only at hs
        split at hs
        · next hne =>
          injection hs with hs
          have hold : execNames entry = [entry.new_part_name, a] := by
            simp [execNames, hce2, hactual, hne]
          rw [hold] at hAB1
          simp only [List.cons_append, List.nil_append] at hAB1
          have hsub2 : ∀ n ∈ A ++ entry.new_part_name :: a :: B, n ∈ rq.future_parts := by
            intro n hn
            apply hsub
            rw [claimedNames, hAB1]
            exact hn
          have hnd1 : (A ++ entry.new_part_name :: a :: B).Nodup := by
            have hx := hndc
            rw [claimedNames, hAB1] at hx
            exact hx
          obtain ⟨hndA, hndC, hdisj⟩ := List.nodup_append.mp hnd1
          have hq2f : rq2.future_parts =
              (rq.future_parts.erase entry.new_part_name).erase a := by
            rw [← hs]
          have hnenew : ∀ n ∈ A ++ B, n ≠ entry.new_part_name ∧ n ≠ a := by
            intro n hn
            rcases List.mem_append.mp hn with hn2 | hn2
            · constructor
              · intro hcon
                subst hcon
                exact hdisj hn2 (by simp)
              · intro hcon
                subst hcon
                exact hdisj hn2 (by simp)
            · obtain ⟨hn1C, hndC2⟩ := List.nodup_cons.mp hndC
              obtain ⟨haB, hndB⟩ := List.nodup_cons.mp hndC2
              constructor
              · intro hcon
                subst hcon
                exact hn1C (List.mem_cons_of_mem _ hn2)
              · intro hcon
                subst hcon
                exact haB hn2
          refine ⟨?_, ?_, ?_, hthird⟩
          · intro n hn
            rw [hq2cl] at hn
            obtain ⟨hne1, hne2⟩ := hnenew n hn
            rw [hq2f, List.mem_erase_of_ne hne2, List.mem_erase_of_ne hne1]
            rcases List.mem_append.mp hn with hn2 | hn2
            · exact hsub2 n (List.mem_append.mpr (Or.inl hn2))
            · exact hsub2 n
                (List.mem_append.mpr (Or.inr (List.mem_cons_of_mem _ (List.mem_cons_of_mem _ hn2))))
          · rw [hq2f]
            exact (hndf.erase _).erase _
          · rw [hq2cl]
            exact List.Nodup.sublist
              (((List.sublist_cons_self _ _).trans (List.sublist_cons_self _ _)).append_left A) hnd1
        · next hne =>
          injection hs with hs
          have haeq : a = entry.new_part_name := by
            revert hne
            by_cases hx : a = entry.new_part_name <;> simp [hx]
          have hold : execNames entry = [entry.new_part_name] := by
            simp [execNames, hce2, hactual, haeq]
          rw [hold, List.singleton_append] at hAB1
          have hsub2 : ∀ n ∈ A ++ entry.new_part_name :: B, n ∈ rq.future_parts := by
            intro n hn
            apply hsub
            rw [claimedNames, hAB1]
            exact hn
          have hnd1 : (A ++ entry.new_part_name :: B).Nodup := by
            have hx := hndc
            rw [claimedNames, hAB1] at hx
            exact hx
          have hq2f : rq2.future_parts = rq.future_parts.erase entry.new_part_name := by
            rw [← hs]
          have hnenew : ∀ n ∈ A ++ B, n ≠ entry.new_part_name := by
            intro n hn
            have hx := hnd1
            rw [List.nodup_middle] at hx
            obtain ⟨hni, -⟩ := List.nodup_cons.mp hx
            intro hcon
            subst hcon
            exact hni hn
          refine ⟨?_, ?_, ?_, hthird⟩
          · intro n hn
            rw [hq2cl] at hn
            rw [hq2f, List.mem_erase_of_ne (hnenew n hn)]
            rcases List.mem_append.mp hn with hn2 | hn2
            · exact hsub2 n (List.mem_append.mpr (Or.inl hn2))
            · exact hsub2 n (List.mem_append.mpr (Or.inr (List.mem_cons_of_mem _ hn2)))
          · rw [hq2f]
            exact hndf.erase _
          · rw [hq2cl]
            exact List.Nodup.sublist ((List.sublist_cons_self _ _).append_left A) hnd1

theorem reachable_sound : ∀ rq : ReplicatedMergeTreeQueue, Reachable rq → queueStateSound rq := by
  intro rq h
  induction h with
  | init =>
    refine ⟨?_, ?_, ?_, ?_⟩ <;> simp [queueStateSound, claimedNames, ReplicatedMergeTreeQueue.empty]
  | insert entry hr he ha ih => exact sound_insertUnlocked _ _ ih he ha
  | ctor i now hr hstep ih => exact sound_ctor _ _ _ _ ih hstep
  | setActual i actual hr hstep ih => exact sound_setActual _ _ _ _ ih hstep
  | dtor i hr hstep ih => exact sound_dtor _ _ _ ih hstep
  | removeEntry entry hr ih =>
    refine sound_queue_sublist _ _ ?_ (remove_queue_future _ entry).2 ih
    rw [(remove_queue_future _ entry).1]
    exact reverse_erase_reverse_sublist _ entry
  | removeByName part_name hr ih =>
    exact sound_queue_sublist _ _ (removeByPartName_queue_future _ part_name).1
      (removeByPartName_queue_future _ part_name).2 ih
  | removeRange part_name hr ih =>
    exact sound_queue_sublist _ _ (removePartProducingOpsInRange_queue_future _ part_name).1
      (removePartProducingOpsInRange_queue_future _ part_name).2 ih

theorem sound_contain {rq : ReplicatedMergeTreeQueue} (h : queueStateSound rq) :
    futurePartsContain rq := by
  obtain ⟨hsub, -, -, -⟩ := h
  intro e he hce
  constructor
  · apply hsub
    exact List.mem_flatMap.mpr ⟨e, he, by simp [execNames, hce]⟩
  · intro a ha hne
    apply hsub
    refine List.mem_flatMap.mpr ⟨e, he, ?_⟩
    simp [execNames, hce, ha, hne]

/-- C1 counterexample: the removal operations break the exact-set form
of the invariant.  Insert one parsed GET_PART entry into the fresh
queue, tag it executing through the `CurrentlyExecuting` constructor
(its name `all_1_1_0` enters `future_parts`), then `remove` the entry —
as `processEntry` does after executing an entry, while the handle is
still alive.  The resulting state is reachable, its queue is empty, yet
`all_1_1_0` is still in `future_parts`, so `future_parts` holds a name
accounted for by no executing queue entry and the exact-set invariant
fails. -/
theorem future_parts_exact_counterexample :
    Reachable removedExecutingExample ∧ ¬ futurePartsExact removedExecutingExample := by
  constructor
  · have h1 : Reachable (insertUnlocked ReplicatedMergeTreeQueue.empty
        ⟨"queue-1", LogEntryType.GET_PART, ⟨"all", 1, 1, 0, 0⟩, [], 0, false, 0, 0, none⟩) :=
      Reachable.insert _ Reachable.init rfl rfl
    have h2 : Reachable
        (⟨[⟨"queue-1", LogEntryType.GET_PART, ⟨"all", 1, 1, 0, 0⟩, [], 0, true, 1, 5, none⟩],
          [⟨"queue-1", LogEntryType.GET_PART, ⟨"all", 1, 1, 0, 0⟩, [], 0, false, 0, 0, none⟩],
          [⟨"all", 1, 1, 0, 0⟩], 0, 0, [], [⟨"all", 1, 1, 0, 0⟩], [], [], [], none, none⟩ :
            ReplicatedMergeTreeQueue) :=
      Reachable.ctor 0 5 h1 rfl
    exact Reachable.removeEntry _ h2
  · intro hexact
    obtain ⟨e, he, -⟩ := (hexact ⟨"all", 1, 1, 0, 0⟩).mp
      (show (⟨"all", 1, 1, 0, 0⟩ : PartName) ∈ [(⟨"all", 1, 1, 0, 0⟩ : PartName)] from
        List.mem_singleton.mpr rfl)
    rw [show removedExecutingExample.queue = [] from rfl] at he
    cases he

/-- C1 (amended): in every queue state reachable under the translated
mutating operations — inserting parsed entries, the `CurrentlyExecuting`
lifecycle (construction, actual-part-naming, destruction) and the three
queue-removal operations — `future_parts` contains at least the
`new_part_name` of every queue entry with `currently_executing = true`,
plus each such entry's `actual_new_part_name` when it is set and
distinct from `new_part_name`; constructing a `CurrentlyExecuting`
handle and destroying one each preserve this containment.  The original
exact-set claim is refuted by `future_parts_exact_counterexample`: a
removal erases a currently-executing entry from the queue while its
name stays in `future_parts` until the handle destructs. -/
theorem currentlyExecuting_future_parts_contain (rq : ReplicatedMergeTreeQueue)
    (h : Reachable rq) :
    futurePartsContain rq
    ∧ (∀ i now rq2, currentlyExecutingCtor rq i now = some rq2 → futurePartsContain rq2)
    ∧ (∀ i rq2, currentlyExecutingDtor rq i = some rq2 → futurePartsContain rq2) := by
  have hsound := reachable_sound rq h
  exact ⟨sound_contain hsound,
    fun i now rq2 hstep => sound_contain (sound_ctor rq rq2 i now hsound hstep),
    fun i rq2 hstep => sound_contain (sound_dtor rq rq2 i hsound hstep)⟩

/-- Witness for C1 at a concrete reachable state whose history includes
a removal of an executing entry: the containment invariant holds
there. -/
theorem currentlyExecuting_future_parts_contain_witness :
    futurePartsContain removedExecutingExample :=
  (currentlyExecuting_future_parts_contain _
    (Reachable.removeEntry _
      (Reachable.ctor 0 5
        (Reachable.insert
          ⟨"queue-1", LogEntryType.GET_PART, ⟨"all", 1, 1, 0, 0⟩, [], 0, false, 0, 0, none⟩
          Reachable.init rfl rfl)
        rfl))).1

/-- Witness for C8: loading the same single coordinator child twice
leaves the queue of the first load unchanged. -/
theorem load_idempotent_witness :
    (load (load ReplicatedMergeTreeQueue.empty ["queue-7"]
        (fun c => ⟨c, LogEntryType.GET_PART, ⟨"all", 1, 1, 0, 0⟩, [], 0, false, 0, 0, none⟩))
      ["queue-7"]
      (fun c => ⟨c, LogEntryType.GET_PART, ⟨"all", 1, 1, 0, 0⟩, [], 0, false, 0, 0, none⟩)).queue =
    (load ReplicatedMergeTreeQueue.empty ["queue-7"]
      (fun c => ⟨c, LogEntryType.GET_PART, ⟨"all", 1, 1, 0, 0⟩, [], 0, false, 0, 0, none⟩)).queue :=
  (load_idempotent ReplicatedMergeTreeQueue.empty ["queue-7"]
    (fun c => ⟨c, LogEntryType.GET_PART, ⟨"all", 1, 1, 0, 0⟩, [], 0, false, 0, 0, none⟩)).2
